import Mathlib

set_option linter.unnecessarySeqFocus false

/-!
Verification of the team-formation assignment engine.

This development shallowly embeds the assignment engine of the repository
(`src/algorithm/algorithms.py`, `src/ai/priority_algorithm/priority_teamset.py`)
and settles the frozen claims about it.

The `Student` and `Team` entity classes, the `CliqueFinder`, `SocialGraph`,
the four utility functions, and the `teamset` module used by
`PriorityAlgorithm` are imported by `algorithms.py` but are not part of the
repository snapshot; the definitions standing in for them are marked
`Modelled from the spec:` and follow the specification text.

Conventions of the embedding:
* Python object mutation becomes explicit state passing over `AState`
  (a list of students and a list of teams); an object reference becomes an
  index into the relevant list.
* Python `while` loops become fuel-indexed recursion returning `Option`.
  A `none` result means the loop had not terminated within the given fuel;
  termination claims are settled by exhibiting sufficient fuel (or by showing
  every fuel yields `none`).
* A Python exception becomes an `Except` error value.
* Utility values (floats in the source) are modelled as an abstract integer
  valued function; every theorem quantifies over it.
-/

/-- Modelled from the spec: relationships are `FRIEND`, `DEFAULT`, `ENEMY`
(§3 of the spec; the numeric constants live in the missing `consts` module). -/
inductive Relationship where
  | friend
  | deflt
  | enemy
deriving DecidableEq, Repr

/-- Modelled from the spec: a `Student` (the `student` module is not in the
repository snapshot) carries a unique identifier, a directional friend list
(the part of the relationship map relevant to the social graph), and the
team back-reference set by the engine; `is_added()` is the back-reference
being set (§3). -/
structure Student where
  id : Nat
  friends : List Nat
  team : Option Nat
deriving DecidableEq, Repr

/-- Modelled from the spec: a `Team` (the `team` module is not in the
repository snapshot) carries a `locked` flag and an ordered member list;
`size` is the member count (§3).  Members are stored as student ids. -/
structure Team where
  isLocked : Bool
  members : List Nat
deriving DecidableEq, Repr

/-- `team.size` in the source. -/
def Team.size (t : Team) : Nat := t.members.length

/-- The `team_generation_option` value consumed read-only by the engine:
`max_teams_size` and `min_team_size` (§6 of the spec). -/
structure TGO where
  maxTeamsSize : Nat
  minTeamSize : Nat
deriving DecidableEq, Repr

/-- The mutable state of one `generate` run: the caller's students and teams. -/
structure AState where
  students : List Student
  teams : List Team
deriving DecidableEq, Repr

/-- A default student used with `List.getD`; never reached at valid indices. -/
def dfltStudent : Student := ⟨0, [], none⟩

/-- A default team used with `List.getD`; never reached at valid indices. -/
def dfltTeam : Team := ⟨false, []⟩

/-- `Algorithm.get_remaining_students`: the students whose team
back-reference is unset, as indices into `st.students`. -/
def getRemainingStudents (st : AState) : List Nat :=
  (List.range st.students.length).filter
    (fun i => ((st.students.getD i dfltStudent).team).isNone)

/-- The remaining students as values, in list order (the form the social
algorithm passes to the clique finder). -/
def remainingStudentVals (st : AState) : List Student :=
  st.students.filter (fun s => s.team.isNone)

/-- `Algorithm.get_available_teams` (no student argument): the unlocked teams
whose size is below `max_teams_size`, as indices into `st.teams`. -/
def getAvailableTeams (tgo : TGO) (st : AState) : List Nat :=
  (List.range st.teams.length).filter
    (fun j => decide ((st.teams.getD j dfltTeam).size < tgo.maxTeamsSize)
      && !(st.teams.getD j dfltTeam).isLocked)

/-- Modelled from the spec: `team.add_student(student)` followed by
`student.add_team(team)` — append the student's id to the team's member list
and set the student's back-reference (§3: the engine mutates team membership
and the back-reference in place; the entity classes are not in the snapshot). -/
def addPair (st : AState) (j : Nat) (i : Nat) : AState :=
  let sid := (st.students.getD i dfltStudent).id
  let t := st.teams.getD j dfltTeam
  let s := st.students.getD i dfltStudent
  ⟨st.students.set i ⟨s.id, s.friends, some j⟩,
   st.teams.set j ⟨t.isLocked, t.members ++ [sid]⟩⟩

/-- One iteration of the smallest-team loop of `choose`:
`if smallest_team is None or team.size < smallest_team.size`. -/
def smallerTeamStep (st : AState) (acc : Option Nat) (j : Nat) : Option Nat :=
  match acc with
  | none => some j
  | some j0 =>
      if (st.teams.getD j dfltTeam).size < (st.teams.getD j0 dfltTeam).size
      then some j else some j0

/-- First pass of `WeightAlgorithm.choose` / `RandomAlgorithm.choose`:
the first team of strictly smallest size among the given team indices. -/
def pickSmallestTeam (st : AState) (avail : List Nat) : Option Nat :=
  avail.foldl (smallerTeamStep st) none

/-- One iteration of the greatest-utility loop of `WeightAlgorithm.choose`:
`if greatest_utility_student is None or utility > greatest_utility`. -/
def bestStudentStep (util : Team → Student → Int) (st : AState) (j : Nat)
    (acc : Option (Nat × Int)) (i : Nat) : Option (Nat × Int) :=
  let u := util (st.teams.getD j dfltTeam) (st.students.getD i dfltStudent)
  match acc with
  | none => some (i, u)
  | some (i0, u0) => if u > u0 then some (i, u) else some (i0, u0)

/-- Second pass of `WeightAlgorithm.choose`: the student of greatest
`_get_utility` against the chosen team (`greatest_utility` starts at `0`,
the first student is always taken, later students need a strictly greater
utility).  `util` stands for the combined utility `_get_utility`, whose four
summands live in the missing `utility` module. -/
def pickBestStudent (util : Team → Student → Int) (st : AState) (j : Nat)
    (rem : List Nat) : Option Nat :=
  (rem.foldl (bestStudentStep util st j) none).map Prod.fst

/-- `WeightAlgorithm.choose`: smallest available team, highest-utility
remaining student. -/
def weightChoose (util : Team → Student → Int) (st : AState)
    (avail rem : List Nat) : Option Nat × Option Nat :=
  match pickSmallestTeam st avail with
  | none => (none, none)
  | some j => (some j, pickBestStudent util st j rem)

/-- `RandomAlgorithm.choose`: smallest available team, uniformly random
remaining student; the random draw `random.randint(0, len-1)` is modelled by
an oracle `rng` indexed by the call counter, reduced modulo the list length. -/
def randomChoose (rng : Nat → Nat) (k : Nat) (st : AState)
    (avail rem : List Nat) : Option Nat × Option Nat :=
  match pickSmallestTeam st avail, rem with
  | some j, _ :: _ => (some j, some (rem.getD (rng k % rem.length) 0))
  | _, _ => (none, none)

/-- `_generate_with_choose`: repeatedly ask the strategy for a
`(team, student)` pair over the current available teams and remaining
students; stop as soon as either is absent, otherwise add the student to the
team and repeat.  `chooser` receives the call counter (used only by the
random strategy), the state, and the two lists. -/
def generateWithChoose (tgo : TGO)
    (chooser : Nat → AState → List Nat → List Nat → Option Nat × Option Nat) :
    Nat → Nat → AState → Option AState
  | 0, _, _ => none
  | fuel + 1, k, st =>
      match chooser k st (getAvailableTeams tgo st) (getRemainingStudents st) with
      | (some j, some i) => generateWithChoose tgo chooser fuel (k + 1) (addPair st j i)
      | _ => some st

/-- The weight strategy as a chooser for the shared loop. -/
def weightChooser (util : Team → Student → Int) :
    Nat → AState → List Nat → List Nat → Option Nat × Option Nat :=
  fun _ st avail rem => weightChoose util st avail rem

/-- The random strategy as a chooser for the shared loop. -/
def randomChooser (rng : Nat → Nat) :
    Nat → AState → List Nat → List Nat → Option Nat × Option Nat :=
  fun k st avail rem => randomChoose rng k st avail rem

/-- `WeightAlgorithm.generate`. -/
def weightGenerate (tgo : TGO) (util : Team → Student → Int) (fuel : Nat)
    (st : AState) : Option AState :=
  generateWithChoose tgo (weightChooser util) fuel 0 st

/-- `RandomAlgorithm.generate`. -/
def randomGenerate (tgo : TGO) (rng : Nat → Nat) (fuel : Nat)
    (st : AState) : Option AState :=
  generateWithChoose tgo (randomChooser rng) fuel 0 st

/-- `PriorityAlgorithm.NUM_KEPT_TEAM_SETS`. -/
def NUM_KEPT_TEAM_SETS : Nat := 3

/-- Modelled from the spec: the `PriorityTeamSet` of the missing `teamset`
module wraps a candidate team roster with a lazily cached fitness score
(§3, §4.5).  In a pure embedding the cache is invisible; the score is the
abstract `score` function every priority theorem quantifies over. -/
structure PTeamSet where
  teams : List Team
deriving DecidableEq, Repr

/-- Modelled from the spec: `PriorityTeamSet.clone` deep-copies the candidate
into an independently owned team-set (§5); a deep copy of a pure value is the
value itself. -/
def PTeamSet.clone (ts : PTeamSet) : PTeamSet := ts

/-- `PriorityAlgorithm.mutate`: in the source a bare structural clone
(`return [cloned_teamset]`). -/
def priorityMutate (ts : PTeamSet) : List PTeamSet := [ts.clone]

/-- Insertion step for the descending sort of the kept population. -/
def insertDesc (score : PTeamSet → Int) (x : PTeamSet) :
    List PTeamSet → List PTeamSet
  | [] => [x]
  | y :: ys => if score y < score x then x :: y :: ys else y :: insertDesc score x ys

/-- Modelled from the spec: `team_sets.sort(reverse=True)` — sort the
population descending by fitness (§4.5; the comparison lives in the missing
`teamset` module). -/
def sortDescByScore (score : PTeamSet → Int) : List PTeamSet → List PTeamSet
  | [] => []
  | x :: xs => insertDesc score x (sortDescByScore score xs)

/-- One iteration of `PriorityAlgorithm.generate`: mutate every kept
team-set, append the children, sort descending, truncate to the kept size. -/
def priorityStep (score : PTeamSet → Int) (pop : List PTeamSet) : List PTeamSet :=
  (sortDescByScore score (pop ++ pop.flatMap priorityMutate)).take NUM_KEPT_TEAM_SETS

/-- The `while (time.time() - start_time) < self.MAX_TIME` loop, the wall
clock budget modelled as an iteration count. -/
def priorityLoop (score : PTeamSet → Int) : Nat → List PTeamSet → List PTeamSet
  | 0, pop => pop
  | n + 1, pop => priorityLoop score n (priorityStep score pop)

/-- `PriorityAlgorithm.generate`: seed with the weight strategy, run the
time-boxed loop, return the teams of the best kept team-set. -/
def priorityGenerate (tgo : TGO) (util : Team → Student → Int)
    (score : PTeamSet → Int) (fuel iters : Nat) (st : AState) :
    Option (List Team) :=
  match weightGenerate tgo util fuel st with
  | none => none
  | some st1 => some ((priorityLoop score iters [⟨st1.teams⟩]).headD ⟨st1.teams⟩).teams

/-- Modelled from the spec: all subsequences of length `k`, in a fixed
encounter order (the clique finder's enumeration order is not in the
snapshot; only membership and sizes matter to the claims). -/
def kSubsets {α : Type} : Nat → List α → List (List α)
  | 0, _ => [[]]
  | _ + 1, [] => []
  | k + 1, x :: xs => (kSubsets k xs).map (fun c => x :: c) ++ kSubsets (k + 1) xs

/-- Modelled from the spec: the social-graph edge — both directions must
report FRIEND (`SocialGraph(students, FRIEND * 2)`, §4.3). -/
def mutualFriends (a b : Student) : Bool :=
  a.friends.contains b.id && b.friends.contains a.id

/-- Modelled from the spec: a clique is a student set in which every pair
meets the mutual-friend threshold (§4.3). -/
def isClique : List Student → Bool
  | [] => true
  | x :: xs => xs.all (fun y => mutualFriends x y) && isClique xs

/-- Modelled from the spec: `CliqueFinder.get_cliques(size)` composed with
`clique_ids_to_student_list` — every subset of exactly `size` students that
is a clique, as student lists in encounter order (§4.3, §8). -/
def getCliques (students : List Student) (size : Nat) : List (List Student) :=
  (kSubsets size students).filter isClique

/-- Modelled from the spec: `CliqueFinder.find_cliques_lte_size(size)` —
cliques of every size from `size` down to `1` (§4.3). -/
def findLteCliques (students : List Student) (size : Nat) : List (List Student) :=
  ((List.range size).map (fun d => getCliques students (size - d))).flatten

/-- One `team.add_student(student); student.add_team(team)` pair of
`SocialAlgorithm.save_students_to_team`, addressing the student object by its
id. -/
def addStudentById (st : AState) (j : Nat) (s : Student) : AState :=
  let t := st.teams.getD j dfltTeam
  ⟨st.students.map (fun s2 => if s2.id = s.id then ⟨s2.id, s2.friends, some j⟩ else s2),
   st.teams.set j ⟨t.isLocked, t.members ++ [s.id]⟩⟩

/-- `SocialAlgorithm.save_students_to_team`. -/
def saveStudentsToTeam (st : AState) (j : Nat) (cs : List Student) : AState :=
  cs.foldl (fun acc s => addStudentById acc j s) st

/-- `SocialAlgorithm.next_empty_team`: the first team of size zero (the
`locked` flag is not consulted). -/
def nextEmptyTeam (st : AState) : Option Nat :=
  (List.range st.teams.length).find? (fun j => (st.teams.getD j dfltTeam).size == 0)

/-- One iteration of `get_largest_fragment_team`: skip teams at or above the
minimum size, otherwise keep the strictly larger of the current best and
this team. -/
def fragmentStep (tgo : TGO) (st : AState) (acc : Option Nat × Nat)
    (j : Nat) : Option Nat × Nat :=
  if tgo.minTeamSize ≤ (st.teams.getD j dfltTeam).size then acc
  else if acc.2 < (st.teams.getD j dfltTeam).size
  then (some j, (st.teams.getD j dfltTeam).size) else acc

/-- `SocialAlgorithm.get_largest_fragment_team`: among teams strictly below
the minimum size, the first of strictly greatest size; `largest_size` starts
at `0`, so empty teams are never selected (the `locked` flag is not
consulted). -/
def getLargestFragmentTeam (tgo : TGO) (st : AState) : Option Nat :=
  ((List.range st.teams.length).foldl (fragmentStep tgo st)
    ((none : Option Nat), 0)).1

/-- Phase 1 of `SocialAlgorithm.generate`: place each clique found at phase
start into the next empty team, stopping when no empty team remains. -/
def socialStep1 : List (List Student) → AState → AState
  | [], st => st
  | c :: rest, st =>
      match nextEmptyTeam st with
      | none => st
      | some j => socialStep1 rest (saveStudentsToTeam st j c)

/-- Phase 2 of `SocialAlgorithm.generate`: while an empty team remains, look
for cliques of size `min_team_size - 1` among the remaining students (`k` is
reset on every iteration, the trailing `k -= 1` of the source is dead); on an
empty result the loop `continue`s with unchanged state. -/
def socialStep2 (tgo : TGO) : Nat → AState → Option AState
  | 0, _ => none
  | fuel + 1, st =>
      match nextEmptyTeam st with
      | none => some st
      | some j =>
          match getCliques (remainingStudentVals st) (tgo.minTeamSize - 1) with
          | [] => socialStep2 tgo fuel st
          | c :: _ => socialStep2 tgo fuel (saveStudentsToTeam st j c)

/-- The inner loop of phase 3: grow team `j` while it is below the minimum
size with the head of `find_lte_cliques`; `all_cliques[0]` on an empty result
is the source's IndexError, embedded as an `Except.error`. -/
def socialStep3Grow (tgo : TGO) (j : Nat) : Nat → AState → Option (Except Unit AState)
  | 0, _ => none
  | fuel + 1, st =>
      if (st.teams.getD j dfltTeam).size < tgo.minTeamSize then
        match findLteCliques (remainingStudentVals st)
            (tgo.minTeamSize - (st.teams.getD j dfltTeam).size) with
        | [] => some (Except.error ())
        | c :: _ => socialStep3Grow tgo j fuel (saveStudentsToTeam st j c)
      else some (Except.ok st)

/-- Phase 3 of `SocialAlgorithm.generate`: while unassigned students remain,
grow the largest fragment team; no fragment team ends the phase. -/
def socialStep3 (tgo : TGO) : Nat → AState → Option (Except Unit AState)
  | 0, _ => none
  | fuel + 1, st =>
      if (getRemainingStudents st).isEmpty then some (Except.ok st)
      else
        match getLargestFragmentTeam tgo st with
        | none => some (Except.ok st)
        | some j =>
            match socialStep3Grow tgo j fuel st with
            | none => none
            | some (Except.error e) => some (Except.error e)
            | some (Except.ok st2) => socialStep3 tgo fuel st2

/-- The inner loop of phase 4 for one straggler: the available-team list is
computed once, then the student is saved to every team in it (the source has
no break). -/
def socialStep4One (tgo : TGO) (st : AState) (s : Student) : AState :=
  (getAvailableTeams tgo st).foldl (fun acc j => addStudentById acc j s) st

/-- Phase 4 of `SocialAlgorithm.generate`: iterate over the snapshot of
remaining students taken at phase entry. -/
def socialStep4 (tgo : TGO) (st : AState) : AState :=
  (remainingStudentVals st).foldl (fun acc s => socialStep4One tgo acc s) st

/-- `SocialAlgorithm.generate`: the four phases in order.  `none` is fuel
exhaustion (the source loops forever), `Except.error` a raised exception. -/
def socialGenerate (tgo : TGO) (fuel : Nat) (st : AState) :
    Option (Except Unit AState) :=
  let st1 := socialStep1 (getCliques (remainingStudentVals st) tgo.maxTeamsSize) st
  match socialStep2 tgo fuel st1 with
  | none => none
  | some st2 =>
      match socialStep3 tgo fuel st2 with
      | none => none
      | some (Except.error e) => some (Except.error e)
      | some (Except.ok st3) => some (Except.ok (socialStep4 tgo st3))

/-- A dynamically typed Python value, as passed to the `AlgorithmOptions`
constructor: `None`, an int, a str, a list, or a dict. -/
inductive Val where
  | vnone
  | vint (n : Int)
  | vstr (s : String)
  | vlist (xs : List Val)
  | vdict (d : List (String × Val))

/-- Python truthiness of a `Val` (`if item and ...`, `item or default`). -/
def Val.truthy : Val → Bool
  | .vnone => false
  | .vint n => n != 0
  | .vstr s => !s.isEmpty
  | .vlist xs => !xs.isEmpty
  | .vdict d => !d.isEmpty

/-- `isinstance(item, int)`. -/
def Val.isInt : Val → Bool
  | .vint _ => true
  | _ => false

/-- `AlgorithmOptions.BEHAVIOUR_OPTIONS.values()`. -/
def BEHAVIOUR_OPTIONS : List String := ["enforce", "invert", "ignore"]

/-- The behaviour check of `AlgorithmOptions.validate`: a string that is one
of the behaviour options. -/
def isValidBehaviourVal : Val → Bool
  | .vstr s => BEHAVIOUR_OPTIONS.contains s
  | _ => false

/-- `Schema({'id': int})` on one element of a diversify/concentrate list. -/
def matchesIdDict : Val → Bool
  | .vdict [(k, Val.vint _)] => k == "id"
  | _ => false

/-- `Schema([{'id': int}])` on a diversify/concentrate option list. -/
def matchesOptionsList : Val → Bool
  | .vlist xs => xs.all matchesIdDict
  | _ => false

/-- One required integer key of the priorities schema. -/
def hasIntKey (d : List (String × Val)) (k : String) : Bool :=
  match List.lookup k d with
  | some (Val.vint _) => true
  | _ => false

/-- `Schema({'order': int, 'type': str, 'id': int, 'max_of': int,
'min_of': int, 'value': int})` on one priority dict. -/
def matchesPriorityDict : Val → Bool
  | .vdict d =>
      d.length == 6 && hasIntKey d "order" && hasIntKey d "id" &&
      hasIntKey d "max_of" && hasIntKey d "min_of" && hasIntKey d "value" &&
      (match List.lookup "type" d with
       | some (Val.vstr _) => true
       | _ => false)
  | _ => false

/-- The integer stored under key `k` of a priority dict (total lookup; the
schema has already guaranteed presence wherever this is used). -/
def priorityInt (d : List (String × Val)) (k : String) : Int :=
  match List.lookup k d with
  | some (Val.vint n) => n
  | _ => 0

/-- A priority with both `min_of` and `max_of` set (`-1` is unspecified). -/
def priorityBothLimits : Val → Bool
  | .vdict d => priorityInt d "max_of" != -1 && priorityInt d "min_of" != -1
  | _ => false

/-- A priority with a limit set but no target value. -/
def priorityLimitNoValue : Val → Bool
  | .vdict d =>
      priorityInt d "value" == -1 &&
        (priorityInt d "max_of" != -1 || priorityInt d "min_of" != -1)
  | _ => false

/-- `conf_inner` of `AlgorithmOptions.validate`: both limits set, or a limit
set without a value. -/
def confInnerViolation (v : Val) : Bool :=
  priorityBothLimits v || priorityLimitNoValue v

/-- The stored fields of `AlgorithmOptions` after `__init__` defaulting. -/
structure AlgorithmOptions where
  requirement_weight : Val
  social_weight : Val
  diversity_weight : Val
  preference_weight : Val
  max_project_preferences : Val
  blacklist_behaviour : Val
  whitelist_behaviour : Val
  diversify_options : Val
  concentrate_options : Val
  priorities : Val

/-- `x or default` of the constructor. -/
def orDefault (v d : Val) : Val := if v.truthy then v else d

/-- The weight loop of `AlgorithmOptions.validate`:
`if item and not isinstance(item, int)`. -/
def weightsError (o : AlgorithmOptions) : Bool :=
  [o.diversity_weight, o.preference_weight, o.requirement_weight,
   o.social_weight, o.max_project_preferences].any
    (fun v => v.truthy && !v.isInt)

/-- The behaviour loop of `AlgorithmOptions.validate`. -/
def behavioursError (o : AlgorithmOptions) : Bool :=
  [o.blacklist_behaviour, o.whitelist_behaviour].any
    (fun v => !isValidBehaviourVal v)

/-- The `Schema([[{'id': int}]])` check over
`[concentrate_options, diversify_options]`. -/
def optionsListsError (o : AlgorithmOptions) : Bool :=
  !(matchesOptionsList o.concentrate_options &&
    matchesOptionsList o.diversify_options)

/-- The priorities check of `AlgorithmOptions.validate` on the stored value:
the schema over the whole list, then `conf_inner` on each dict. -/
def prioritiesErrVal : Val → Bool
  | Val.vlist xs => !(xs.all matchesPriorityDict) || xs.any confInnerViolation
  | _ => true

/-- The priorities check of `AlgorithmOptions.validate`. -/
def prioritiesError (o : AlgorithmOptions) : Bool :=
  prioritiesErrVal o.priorities

/-- `AlgorithmOptions.validate`: raise the first applicable
`AlgorithmException`, otherwise yield the options object. -/
def validateOptions (o : AlgorithmOptions) : Except String AlgorithmOptions :=
  if weightsError o then
    Except.error "One or more of the weights or max preferences is not an integer."
  else if behavioursError o then
    Except.error "Invalid behaviour option."
  else if optionsListsError o then
    Except.error "Invalid format for concentrate/diversify options"
  else if prioritiesError o then
    Except.error "Invalid priorities"
  else Except.ok o

/-- `AlgorithmOptions.__init__`: store the arguments, defaulting falsy
behaviours to IGNORE and falsy lists to empty, then validate eagerly; an
error means no options object is returned. -/
def mkAlgorithmOptions (requirement_weight social_weight diversity_weight
    preference_weight max_project_preferences blacklist_behaviour
    whitelist_behaviour diversify_options concentrate_options
    priorities : Val) : Except String AlgorithmOptions :=
  validateOptions
    ⟨requirement_weight, social_weight, diversity_weight, preference_weight,
     max_project_preferences,
     orDefault blacklist_behaviour (Val.vstr "ignore"),
     orDefault whitelist_behaviour (Val.vstr "ignore"),
     orDefault diversify_options (Val.vlist []),
     orDefault concentrate_options (Val.vlist []),
     orDefault priorities (Val.vlist [])⟩

/-- `AlgorithmOptions.get_adjusted_relationships`, as the finite map it
builds: the identity table, with the FRIEND entry rewritten by the whitelist
behaviour and the ENEMY entry by the blacklist behaviour; any other
behaviour string acts as ENFORCE. -/
def getAdjustedRelationships (whitelist blacklist : String) :
    Relationship → Relationship
  | Relationship.friend =>
      if whitelist = "invert" then Relationship.enemy
      else if whitelist = "ignore" then Relationship.deflt
      else Relationship.friend
  | Relationship.deflt => Relationship.deflt
  | Relationship.enemy =>
      if blacklist = "invert" then Relationship.friend
      else if blacklist = "ignore" then Relationship.deflt
      else Relationship.enemy

/-- `PriorityAlgorithm.set_default_weights`: overwrite the four scoring
weights with `1` on the options object itself. -/
def setDefaultWeights (o : AlgorithmOptions) : AlgorithmOptions :=
  { o with
    social_weight := Val.vint 1,
    diversity_weight := Val.vint 1,
    requirement_weight := Val.vint 1,
    preference_weight := Val.vint 1 }

/-- `PriorityAlgorithm.__init__`: the base initializer stores the options
(its `Schema(AlgorithmOptions)` check is an isinstance test, always satisfied
here), then `set_default_weights` mutates them. -/
def priorityAlgorithmInit (o : AlgorithmOptions) : AlgorithmOptions :=
  setDefaultWeights o

/-- One entry of `PriorityTeamSet.priority_teams`
(`src/ai/priority_algorithm/priority_teamset.py`): a team reference and the
member student ids. -/
structure PyPriorityTeam where
  team : Nat
  student_ids : List Nat
deriving DecidableEq, Repr

/-- The `PriorityTeamSet` dataclass of
`src/ai/priority_algorithm/priority_teamset.py`.  `priority_teams = none`
models the Python attribute being unset (the hand-written `__init__` shadows
the dataclass-generated one and never assigns it; the dataclass machinery
also removes the `field(default_factory=list)` class attribute, so reading it
raises AttributeError); `score` is the attribute the initializer sets to
`None`. -/
structure PyPriorityTeamSet where
  priority_teams : Option (List PyPriorityTeam)
  score : Option Int
deriving DecidableEq, Repr

/-- `PriorityTeamSet.__init__(self, *args, **kwargs)`: ignores every
argument (including a `priority_teams=` keyword) and only sets
`score = None`. -/
def pyPriorityTeamSetInit (_ignored : List PyPriorityTeam) : PyPriorityTeamSet :=
  ⟨none, none⟩

/-- `PriorityTeamSet.clone`: deep-copy `self.priority_teams` (an
AttributeError when the attribute is unset) and hand the copy to the
constructor. -/
def PyPriorityTeamSet.clone (self : PyPriorityTeamSet) :
    Except String PyPriorityTeamSet :=
  match self.priority_teams with
  | none => Except.error "AttributeError: priority_teams"
  | some pts => Except.ok (pyPriorityTeamSetInit pts)

/-- `isOk` for constructor results. -/
def isOkE {α : Type} (e : Except String α) : Bool :=
  match e with
  | Except.ok _ => true
  | Except.error _ => false

/-- `None`-ness of a Python value. -/
def Val.isNoneV : Val → Bool
  | .vnone => true
  | _ => false

/-- Claim C7's invalidity conditions, following the claim's words: a
non-integer weight or max_project_preferences, an invalid behaviour value, a
malformed diversify/concentrate option list, a priority with both limits
set, or a priority with a limit but no target value (an omitted / `None`
argument is not an invalid one). -/
def claimInvalidOptions (rw sw dw pw mpp bb wb dopts copts prios : Val) : Bool :=
  [rw, sw, dw, pw, mpp].any (fun v => !v.isNoneV && !v.isInt) ||
  [bb, wb].any (fun v => !v.isNoneV && !isValidBehaviourVal v) ||
  [dopts, copts].any (fun v => !v.isNoneV && !matchesOptionsList v) ||
  (match prios with
   | Val.vlist xs => xs.any priorityBothLimits || xs.any priorityLimitNoValue
   | _ => false)

/-- The amended invalidity conditions: a falsy argument (`None`, `0`, an
empty string or list) counts as unset and is defaulted, never validated, and
a priorities list that does not match the required record shape also raises. -/
def amendedInvalidOptions (rw sw dw pw mpp bb wb dopts copts prios : Val) : Bool :=
  [dw, pw, rw, sw, mpp].any (fun v => v.truthy && !v.isInt) ||
  [bb, wb].any (fun v => v.truthy && !isValidBehaviourVal v) ||
  [copts, dopts].any (fun v => v.truthy && !matchesOptionsList v) ||
  (prios.truthy &&
    (match prios with
     | Val.vlist xs => !(xs.all matchesPriorityDict) || xs.any confInnerViolation
     | _ => true))

/-! ## Concrete inputs used by counterexamples and failing-input theorems -/

/-- Two mutual friends and a single locked, empty team of capacity 2. -/
def lockedInit : AState := ⟨[⟨1, [2], none⟩, ⟨2, [1], none⟩], [⟨true, []⟩]⟩

/-- Five students (two mutual-friend pairs and the loner 5) and two unlocked
teams, `min_team_size = 2`, `max_teams_size = 3`. -/
def stragglerInit : AState :=
  ⟨[⟨1, [2], none⟩, ⟨2, [1], none⟩, ⟨3, [4], none⟩, ⟨4, [3], none⟩, ⟨5, [], none⟩],
   [⟨false, []⟩, ⟨false, []⟩]⟩

/-- Two mutual friends and three empty teams, `min = max = 2`: after phase 1
fills the first team, two empty teams remain and no student does. -/
def phase2Init : AState :=
  ⟨[⟨1, [2], none⟩, ⟨2, [1], none⟩], [⟨false, []⟩, ⟨false, []⟩, ⟨false, []⟩]⟩

/-- The state phase 1 leaves `phase2Init` in: both students placed in the
first team, the other two teams still empty. -/
def phase2Stuck : AState :=
  ⟨[⟨1, [2], some 0⟩, ⟨2, [1], some 0⟩], [⟨false, [1, 2]⟩, ⟨false, []⟩, ⟨false, []⟩]⟩

/-- One lone student and one team prefilled with a single member (id 9) that
is not in the student list, `min = max = 4`: a fragment of deficit 3 that
only one student can grow. -/
def fragmentInit : AState := ⟨[⟨1, [], none⟩], [⟨false, [9]⟩]⟩

/-! ## C2 (counterexample part): the social strategy mutates a locked team -/

/-- C2 is false as stated: on `lockedInit` (a locked, empty team of capacity
2 and two mutual friends) `SocialAlgorithm.generate` terminates and has
added both students to the locked team — phase 1's `next_empty_team` checks
only `size == 0`, never the `locked` flag.  The first two conjuncts exhibit
that the team starts locked and empty; the third evaluates the run. -/
theorem social_mutates_locked_team :
    (lockedInit.teams.getD 0 dfltTeam).isLocked = true ∧
    (lockedInit.teams.getD 0 dfltTeam).members = [] ∧
    socialGenerate ⟨2, 2⟩ 5 lockedInit =
      some (Except.ok ⟨[⟨1, [2], some 0⟩, ⟨2, [1], some 0⟩], [⟨true, [1, 2]⟩]⟩) :=
  ⟨rfl, rfl, rfl⟩

/-! ## C4: phase 4 places a straggler into every available team -/

/-- C4's failing input: on `stragglerInit`, phases 1–3 leave student 5
unassigned with both teams at size 2 (below the maximum 3); phase 4 then
saves student 5 to team 0 AND team 1 — the inner loop over
`get_available_teams` has no break, so the straggler is added to every team
with spare capacity, not only the first. -/
theorem social_phase4_straggler_double_placed :
    socialGenerate ⟨3, 2⟩ 20 stragglerInit =
      some (Except.ok
        ⟨[⟨1, [2], some 0⟩, ⟨2, [1], some 1⟩, ⟨3, [4], some 0⟩,
          ⟨4, [3], some 1⟩, ⟨5, [], some 1⟩],
         [⟨false, [1, 3, 5]⟩, ⟨false, [2, 4, 5]⟩]⟩) ∧
    ([(false, [1, 3, 5]), (false, [2, 4, 5])].map
      (fun t => t.2.count 5)).sum = 2 :=
  ⟨rfl, rfl⟩

/-! ## C5: phase 2 loops forever when an empty team remains but no clique -/

/-- Phase 1 of the run on `phase2Init` places the only 2-clique into the
first team. -/
theorem socialStep1_phase2Init :
    socialStep1 (getCliques (remainingStudentVals phase2Init) 2) phase2Init =
      phase2Stuck := rfl

/-- In `phase2Stuck` an empty team remains, no student does; the phase-2
body recomputes `k = min_team_size - 1` every iteration (the `k -= 1` of the
source is dead), finds no clique, and `continue`s with unchanged state. -/
theorem socialStep2_stuck_step (n : Nat) :
    socialStep2 ⟨2, 2⟩ (n + 1) phase2Stuck = socialStep2 ⟨2, 2⟩ n phase2Stuck := rfl

/-- C5 is false of the code: phase 2 never terminates on `phase2Stuck`. -/
theorem socialStep2_never_terminates (fuel : Nat) :
    socialStep2 ⟨2, 2⟩ fuel phase2Stuck = none := by
  induction fuel with
  | zero => rfl
  | succ n ih => rw [socialStep2_stuck_step, ih]

/-- C5's failing input: `SocialAlgorithm.generate` on `phase2Init` (three
teams, `min = max = 2`, one mutual-friend pair) diverges — for every fuel
bound the phase-2 loop is still running.  The claim's countdown over `k`
does not happen: `k` is reset to `min_team_size - 1` at the top of every
iteration. -/
theorem social_generate_diverges_on_phase2Init (fuel : Nat) :
    socialGenerate ⟨2, 2⟩ fuel phase2Init = none := by
  unfold socialGenerate
  rw [socialStep1_phase2Init]
  simp only [socialStep2_never_terminates]

/-! ## C6: phase 3 raises IndexError when no clique of the requested size exists -/

/-- C6 is false of the code: on `fragmentInit` (one team prefilled to size 1
with `min_team_size = 4`, one lone student) phase 3 grows the fragment with
the lone student, then finds `find_lte_cliques` empty while the team is
still below the minimum size, and `all_cliques[0]` raises IndexError —
absence of a clique of the requested size is not handled by control flow. -/
theorem social_phase3_raises_on_fragmentInit :
    socialGenerate ⟨4, 4⟩ 10 fragmentInit = some (Except.error ()) := rfl

/-! ## C8: the adjusted-relationship table -/

/-- C8: for every pair of behaviour settings drawn from the behaviour
options, `get_adjusted_relationships` maps FRIEND per the whitelist
behaviour (ENFORCE keeps it, INVERT sends it to ENEMY, IGNORE to DEFAULT),
ENEMY per the blacklist behaviour (ENFORCE keeps it, INVERT sends it to
FRIEND, IGNORE to DEFAULT), and DEFAULT always to DEFAULT. -/
theorem adjusted_relationships_table (w b : String)
    (hw : w ∈ BEHAVIOUR_OPTIONS) (hb : b ∈ BEHAVIOUR_OPTIONS) :
    (w = "enforce" →
      getAdjustedRelationships w b Relationship.friend = Relationship.friend) ∧
    (w = "invert" →
      getAdjustedRelationships w b Relationship.friend = Relationship.enemy) ∧
    (w = "ignore" →
      getAdjustedRelationships w b Relationship.friend = Relationship.deflt) ∧
    (b = "enforce" →
      getAdjustedRelationships w b Relationship.enemy = Relationship.enemy) ∧
    (b = "invert" →
      getAdjustedRelationships w b Relationship.enemy = Relationship.friend) ∧
    (b = "ignore" →
      getAdjustedRelationships w b Relationship.enemy = Relationship.deflt) ∧
    getAdjustedRelationships w b Relationship.deflt = Relationship.deflt := by
  fin_cases hw <;> fin_cases hb <;> exact (by decide)

/-- Witness for C8 at the concrete pair INVERT / IGNORE. -/
theorem adjusted_relationships_table_witness :
    getAdjustedRelationships "invert" "ignore" Relationship.friend =
        Relationship.enemy ∧
    getAdjustedRelationships "invert" "ignore" Relationship.enemy =
        Relationship.deflt :=
  ⟨(adjusted_relationships_table "invert" "ignore" (by decide) (by decide)).2.1 rfl,
   (adjusted_relationships_table "invert" "ignore" (by decide)
     (by decide)).2.2.2.2.2.1 rfl⟩

/-! ## C9: the ai `PriorityTeamSet.clone` does not carry its data -/

/-- C9 is false of the code: cloning a `PriorityTeamSet` whose
`priority_teams` attribute holds one team does not produce a copy carrying
the same `priority_teams` — the hand-written `__init__(self, *args,
**kwargs)` shadows the dataclass initializer and drops the
`priority_teams=` keyword, so the clone comes back with the attribute unset;
and cloning a set fresh from the constructor raises AttributeError
outright. -/
theorem pyClone_drops_priority_teams :
    PyPriorityTeamSet.clone ⟨some [⟨0, [1, 2]⟩], none⟩ =
        Except.ok ⟨none, none⟩ ∧
    PyPriorityTeamSet.clone (pyPriorityTeamSetInit [⟨0, [1, 2]⟩]) =
        Except.error "AttributeError: priority_teams" :=
  ⟨rfl, rfl⟩

/-! ## C10: the priority constructor overwrites all four weights with 1 -/

/-- C10: for every options object handed to the `PriorityAlgorithm`
constructor, the stored options end with social, diversity, requirement and
preference weights all equal to the integer 1, whatever the caller
supplied. -/
theorem priority_init_default_weights (o : AlgorithmOptions) :
    (priorityAlgorithmInit o).social_weight = Val.vint 1 ∧
    (priorityAlgorithmInit o).diversity_weight = Val.vint 1 ∧
    (priorityAlgorithmInit o).requirement_weight = Val.vint 1 ∧
    (priorityAlgorithmInit o).preference_weight = Val.vint 1 :=
  ⟨rfl, rfl, rfl, rfl⟩

/-! ## C7: when exactly does `AlgorithmOptions` construction raise -/

/-- `validateOptions` succeeds exactly when none of its four checks fires. -/
theorem isOkE_validateOptions (o : AlgorithmOptions) :
    isOkE (validateOptions o) =
      !(weightsError o || behavioursError o || optionsListsError o ||
        prioritiesError o) := by
  unfold validateOptions isOkE
  cases h1 : weightsError o <;> cases h2 : behavioursError o <;>
    cases h3 : optionsListsError o <;> cases h4 : prioritiesError o <;>
    simp [h1, h2, h3, h4]

/-- The behaviour check after `x or IGNORE` defaulting fires exactly on a
truthy invalid behaviour value. -/
theorem behaviourCheck_orDefault (v : Val) :
    (!isValidBehaviourVal (orDefault v (Val.vstr "ignore"))) =
      (v.truthy && !isValidBehaviourVal v) := by
  unfold orDefault
  cases h : v.truthy <;> simp [h] <;> decide

/-- The option-list check after `x or []` defaulting fires exactly on a
truthy malformed list. -/
theorem optionsCheck_orDefault (v : Val) :
    (!matchesOptionsList (orDefault v (Val.vlist []))) =
      (v.truthy && !matchesOptionsList v) := by
  unfold orDefault
  cases h : v.truthy <;> simp [h] <;> decide

/-- The priorities check after `x or []` defaulting fires exactly on a
truthy failing priorities value. -/
theorem prioritiesErrVal_orDefault (v : Val) :
    prioritiesErrVal (orDefault v (Val.vlist [])) =
      (v.truthy && prioritiesErrVal v) := by
  unfold orDefault
  cases h : v.truthy <;> simp [h] <;> decide

/-- C7, amended: constructing `AlgorithmOptions` raises (returns no options
object) exactly when a truthy non-integer weight or max_project_preferences
is supplied, a truthy invalid behaviour value, a truthy malformed
diversify/concentrate option list, or a truthy priorities argument that
fails the priorities schema or whose dicts set both limits or set a limit
without a target value; falsy arguments count as unset and are defaulted. -/
theorem options_validation_amended (vr vs vd vp vm vbb vwb vdo vco vpr : Val) :
    isOkE (mkAlgorithmOptions vr vs vd vp vm vbb vwb vdo vco vpr) =
      !(amendedInvalidOptions vr vs vd vp vm vbb vwb vdo vco vpr) := by
  unfold mkAlgorithmOptions
  rw [isOkE_validateOptions]
  unfold amendedInvalidOptions weightsError behavioursError optionsListsError
    prioritiesError
  simp only [List.any_cons, List.any_nil, Bool.or_false, Bool.not_and,
    Bool.not_or, behaviourCheck_orDefault, optionsCheck_orDefault,
    prioritiesErrVal_orDefault]
  rfl

/-- C7 as stated is false: `requirement_weight = ""` (an empty string, hence
a non-integer weight) meets the claim's invalidity conditions, yet
construction succeeds — `if item and not isinstance(item, int)` skips every
falsy weight. -/
theorem options_validation_claim_false :
    claimInvalidOptions (Val.vstr "") Val.vnone Val.vnone Val.vnone Val.vnone
        Val.vnone Val.vnone Val.vnone Val.vnone Val.vnone = true ∧
    isOkE (mkAlgorithmOptions (Val.vstr "") Val.vnone Val.vnone Val.vnone
        Val.vnone Val.vnone Val.vnone Val.vnone Val.vnone Val.vnone) = true :=
  ⟨rfl, rfl⟩

/-! ## Generic list lemmas used by the invariant proofs -/

theorem tfGetDSetSelf {α : Type} (l : List α) (i : Nat) (a d : α)
    (h : i < l.length) : (l.set i a).getD i d = a := by
  induction l generalizing i with
  | nil => simp at h
  | cons x xs ih =>
      cases i with
      | zero => rfl
      | succ n => exact ih n (by simpa using h)

theorem tfGetDSetNe {α : Type} (l : List α) (i j : Nat) (a d : α)
    (h : i ≠ j) : (l.set i a).getD j d = l.getD j d := by
  induction l generalizing i j with
  | nil => rfl
  | cons x xs ih =>
      cases i with
      | zero =>
          cases j with
          | zero => exact absurd rfl h
          | succ m => rfl
      | succ n =>
          cases j with
          | zero => rfl
          | succ m => exact ih n m (fun he => h (by rw [he]))

theorem tfSetGetDSelf {α : Type} (l : List α) (i : Nat) (d : α) :
    l.set i (l.getD i d) = l := by
  induction l generalizing i with
  | nil => rfl
  | cons x xs ih =>
      cases i with
      | zero => rfl
      | succ n =>
          show x :: xs.set n (xs.getD n d) = x :: xs
          rw [ih n]

theorem tfSumMapSet {α : Type} (f : α → Nat) (l : List α) (j : Nat) (a d : α)
    (hj : j < l.length) :
    ((l.set j a).map f).sum + f (l.getD j d) = (l.map f).sum + f a := by
  induction l generalizing j with
  | nil => simp at hj
  | cons x xs ih =>
      cases j with
      | zero => simp [List.set_cons_zero]; omega
      | succ n =>
          have hn : n < xs.length := by simpa using hj
          simp only [List.set_cons_succ, List.map_cons, List.sum_cons,
            List.getD_cons_succ]
          have := ih n hn
          omega

theorem tfCountPCongr {α : Type} (l : List α) (p q : α → Bool)
    (h : ∀ x ∈ l, q x = p x) : l.countP q = l.countP p := by
  induction l with
  | nil => rfl
  | cons x xs ih =>
      rw [List.countP_cons, List.countP_cons, h x (List.mem_cons_self x xs),
        ih (fun y hy => h y (List.mem_cons_of_mem x hy))]

theorem tfCountPSetExcept (l : List Nat) (p q : Nat → Bool) (i : Nat)
    (hi : i ∈ l) (hnd : l.Nodup) (hq : q i = false) (hp : p i = true)
    (hagree : ∀ x ∈ l, x ≠ i → q x = p x) :
    l.countP q + 1 = l.countP p := by
  induction l with
  | nil => simp at hi
  | cons x xs ih =>
      rw [List.countP_cons, List.countP_cons]
      rcases List.mem_cons.mp hi with rfl | hixs
      · have hxs : i ∉ xs := (List.nodup_cons.mp hnd).1
        have heq : xs.countP q = xs.countP p :=
          tfCountPCongr xs p q (fun y hy =>
            hagree y (List.mem_cons_of_mem i hy) (fun he => hxs (he ▸ hy)))
        rw [heq, hq, hp]
        simp
      · have hxi : x ≠ i := fun he => (List.nodup_cons.mp hnd).1 (he ▸ hixs)
        rw [hagree x (List.mem_cons_self x xs) hxi]
        have := ih hixs (List.nodup_cons.mp hnd).2
          (fun y hy hyne => hagree y (List.mem_cons_of_mem x hy) hyne)
        omega

theorem tfGetDMapId (l : List Student) (i : Nat) (h : i < l.length) :
    (l.map Student.id).getD i 0 = (l.getD i dfltStudent).id := by
  induction l generalizing i with
  | nil => simp at h
  | cons x xs ih =>
      cases i with
      | zero => rfl
      | succ n => exact ih n (by simpa using h)

theorem tfGetDMem {α : Type} (l : List α) (i : Nat) (d : α) (h : i < l.length) :
    l.getD i d ∈ l := by
  induction l generalizing i with
  | nil => simp at h
  | cons x xs ih =>
      cases i with
      | zero => exact List.mem_cons_self x xs
      | succ n => exact List.mem_cons_of_mem x (ih n (by simpa using h))

/-! ## State measures and invariants -/

/-- `l.set i a = l` beyond the length. -/
theorem tfSetOob {α : Type} (l : List α) (i : Nat) (a : α)
    (h : l.length ≤ i) : l.set i a = l := by
  induction l generalizing i with
  | nil => rfl
  | cons x xs ih =>
      cases i with
      | zero => simp at h
      | succ n => simp [List.set_cons_succ, ih n (by simpa using h)]

/-- Positions of a duplicate-free list carrying equal entries coincide. -/
theorem tfNodupGetDInj {α : Type} (l : List α) (d : α) (hnd : l.Nodup)
    (i j : Nat) (hi : i < l.length) (hj : j < l.length)
    (h : l.getD i d = l.getD j d) : i = j := by
  induction l generalizing i j with
  | nil => simp at hi
  | cons x xs ih =>
      cases i with
      | zero =>
          cases j with
          | zero => rfl
          | succ m =>
              exfalso
              have hm : m < xs.length := by simpa using hj
              have : x ∈ xs := by
                rw [show (x :: xs).getD 0 d = x from rfl] at h
                rw [List.getD_cons_succ] at h
                exact h ▸ tfGetDMem xs m d hm
              exact (List.nodup_cons.mp hnd).1 this
      | succ n =>
          cases j with
          | zero =>
              exfalso
              have hn : n < xs.length := by simpa using hi
              have : x ∈ xs := by
                rw [List.getD_cons_succ, show (x :: xs).getD 0 d = x from rfl] at h
                exact h ▸ tfGetDMem xs n d hn
              exact (List.nodup_cons.mp hnd).1 this
          | succ m =>
              rw [List.getD_cons_succ, List.getD_cons_succ] at h
              have := ih (List.nodup_cons.mp hnd).2 n m (by simpa using hi)
                (by simpa using hj) h
              omega

/-- The number of unassigned students. -/
def unassignedCount (st : AState) : Nat :=
  (List.range st.students.length).countP
    (fun i => ((st.students.getD i dfltStudent).team).isNone)

/-- The spare capacity of the roster under the global maximum team size. -/
def freeSlots (tgo : TGO) (st : AState) : Nat :=
  (st.teams.map (fun t => tgo.maxTeamsSize - t.size)).sum

/-- How often a student id occurs across all member lists. -/
def totalMemCount (st : AState) (sid : Nat) : Nat :=
  (st.teams.map (fun t => t.members.count sid)).sum

/-- Every team is within the maximum team size. -/
def sizeOk (tgo : TGO) (st : AState) : Prop :=
  ∀ j, (st.teams.getD j dfltTeam).size ≤ tgo.maxTeamsSize

/-- Teams that start locked keep exactly their initial contents and flag. -/
def lockedUntouched (st0 st : AState) : Prop :=
  ∀ j, (st0.teams.getD j dfltTeam).isLocked = true →
    st.teams.getD j dfltTeam = st0.teams.getD j dfltTeam

theorem mem_getAvailableTeams (tgo : TGO) (st : AState) (j : Nat) :
    j ∈ getAvailableTeams tgo st ↔
      j < st.teams.length ∧
      (st.teams.getD j dfltTeam).size < tgo.maxTeamsSize ∧
      (st.teams.getD j dfltTeam).isLocked = false := by
  unfold getAvailableTeams
  simp only [List.mem_filter, List.mem_range, Bool.and_eq_true,
    decide_eq_true_eq, Bool.not_eq_true']

theorem mem_getRemainingStudents (st : AState) (i : Nat) :
    i ∈ getRemainingStudents st ↔
      i < st.students.length ∧ (st.students.getD i dfltStudent).team = none := by
  unfold getRemainingStudents
  simp only [List.mem_filter, List.mem_range, Option.isNone_iff_eq_none]

theorem unassignedCount_eq_length_rem (st : AState) :
    unassignedCount st = (getRemainingStudents st).length := by
  unfold unassignedCount getRemainingStudents
  exact List.countP_eq_length_filter _ _

/-! ## Chooser specifications -/

theorem smallerTeamStep_isSome (st : AState) (acc : Option Nat) (j : Nat) :
    (smallerTeamStep st acc j).isSome := by
  unfold smallerTeamStep
  cases acc with
  | none => rfl
  | some j0 =>
      dsimp only
      split <;> rfl

theorem foldlSmaller_mem (st : AState) (l : List Nat) :
    ∀ (acc : Option Nat) (j : Nat),
      l.foldl (smallerTeamStep st) acc = some j → j ∈ l ∨ acc = some j := by
  induction l with
  | nil =>
      intro acc j h
      exact Or.inr (by simpa using h)
  | cons x xs ih =>
      intro acc j h
      rw [List.foldl_cons] at h
      rcases ih _ j h with hx | hacc
      · exact Or.inl (List.mem_cons_of_mem x hx)
      · unfold smallerTeamStep at hacc
        cases acc with
        | none =>
            have : x = j := by simpa using hacc
            exact Or.inl (this ▸ List.mem_cons_self x xs)
        | some j0 =>
            by_cases hlt : (st.teams.getD x dfltTeam).size <
                (st.teams.getD j0 dfltTeam).size
            · simp only [hlt, if_pos] at hacc
              have : x = j := by simpa using hacc
              exact Or.inl (this ▸ List.mem_cons_self x xs)
            · simp only [hlt, if_neg, if_false] at hacc
              exact Or.inr hacc

theorem foldlSmaller_isSome (st : AState) (l : List Nat) :
    ∀ acc : Option Nat, acc.isSome → (l.foldl (smallerTeamStep st) acc).isSome := by
  induction l with
  | nil => intro acc h; simpa using h
  | cons x xs ih =>
      intro acc h
      rw [List.foldl_cons]
      exact ih _ (smallerTeamStep_isSome st acc x)

theorem pickSmallestTeam_mem (st : AState) (l : List Nat) (j : Nat)
    (h : pickSmallestTeam st l = some j) : j ∈ l := by
  rcases foldlSmaller_mem st l none j h with hx | hacc
  · exact hx
  · exact absurd hacc (by simp)

theorem pickSmallestTeam_isSome (st : AState) (x : Nat) (xs : List Nat) :
    (pickSmallestTeam st (x :: xs)).isSome := by
  unfold pickSmallestTeam
  rw [List.foldl_cons]
  exact foldlSmaller_isSome st xs _ (smallerTeamStep_isSome st none x)

theorem bestStudentStep_isSome (util : Team → Student → Int) (st : AState)
    (j : Nat) (acc : Option (Nat × Int)) (i : Nat) :
    (bestStudentStep util st j acc i).isSome := by
  unfold bestStudentStep
  cases acc with
  | none => rfl
  | some p =>
      obtain ⟨i0, u0⟩ := p
      dsimp only
      split <;> rfl

theorem foldlBest_mem (util : Team → Student → Int) (st : AState) (j : Nat)
    (l : List Nat) :
    ∀ (acc : Option (Nat × Int)) (p : Nat × Int),
      l.foldl (bestStudentStep util st j) acc = some p → p.1 ∈ l ∨ acc = some p := by
  induction l with
  | nil =>
      intro acc p h
      exact Or.inr (by simpa using h)
  | cons x xs ih =>
      intro acc p h
      rw [List.foldl_cons] at h
      rcases ih _ p h with hx | hacc
      · exact Or.inl (List.mem_cons_of_mem x hx)
      · unfold bestStudentStep at hacc
        cases acc with
        | none =>
            have : x = p.1 := by
              have := (Option.some.inj hacc)
              rw [← this]
            exact Or.inl (this ▸ List.mem_cons_self x xs)
        | some q =>
            obtain ⟨i0, u0⟩ := q
            dsimp only at hacc
            by_cases hlt : util (st.teams.getD j dfltTeam)
                (st.students.getD x dfltStudent) > u0
            · simp only [hlt, if_pos] at hacc
              have : x = p.1 := by
                have := (Option.some.inj hacc)
                rw [← this]
              exact Or.inl (this ▸ List.mem_cons_self x xs)
            · simp only [hlt, if_neg, if_false] at hacc
              exact Or.inr hacc

theorem foldlBest_isSome (util : Team → Student → Int) (st : AState) (j : Nat)
    (l : List Nat) :
    ∀ acc : Option (Nat × Int), acc.isSome →
      (l.foldl (bestStudentStep util st j) acc).isSome := by
  induction l with
  | nil => intro acc h; simpa using h
  | cons x xs ih =>
      intro acc h
      rw [List.foldl_cons]
      exact ih _ (bestStudentStep_isSome util st j acc x)

theorem pickBestStudent_mem (util : Team → Student → Int) (st : AState)
    (j : Nat) (rem : List Nat) (i : Nat)
    (h : pickBestStudent util st j rem = some i) : i ∈ rem := by
  unfold pickBestStudent at h
  cases hf : rem.foldl (bestStudentStep util st j) none with
  | none => rw [hf] at h; simp at h
  | some p =>
      rw [hf] at h
      have hp : p.1 = i := by simpa using h
      rcases foldlBest_mem util st j rem none p hf with hx | hacc
      · exact hp ▸ hx
      · exact absurd hacc (by simp)

theorem pickBestStudent_isSome (util : Team → Student → Int) (st : AState)
    (j : Nat) (x : Nat) (xs : List Nat) :
    (pickBestStudent util st j (x :: xs)).isSome := by
  unfold pickBestStudent
  rw [List.foldl_cons]
  have h := foldlBest_isSome util st j xs _
    (bestStudentStep_isSome util st j none x)
  simpa using h

theorem weightChoose_some_spec (util : Team → Student → Int) (st : AState)
    (avail rem : List Nat) (j i : Nat)
    (h : weightChoose util st avail rem = (some j, some i)) :
    j ∈ avail ∧ i ∈ rem := by
  unfold weightChoose at h
  cases hp : pickSmallestTeam st avail with
  | none => rw [hp] at h; simp at h
  | some j0 =>
      rw [hp] at h
      have hj : j0 = j := by
        have := congrArg Prod.fst h
        simpa using this
      have hi : pickBestStudent util st j0 rem = some i := by
        have := congrArg Prod.snd h
        simpa using this
      subst hj
      exact ⟨pickSmallestTeam_mem st avail j0 hp,
        pickBestStudent_mem util st j0 rem i hi⟩

theorem weightChoose_progress (util : Team → Student → Int) (st : AState)
    (avail rem : List Nat) (ha : avail ≠ []) (hr : rem ≠ []) :
    ∃ j i, weightChoose util st avail rem = (some j, some i) := by
  cases avail with
  | nil => exact absurd rfl ha
  | cons a as =>
      obtain ⟨j, hj⟩ := Option.isSome_iff_exists.mp (pickSmallestTeam_isSome st a as)
      cases rem with
      | nil => exact absurd rfl hr
      | cons r rs =>
          obtain ⟨i, hi⟩ := Option.isSome_iff_exists.mp
            (pickBestStudent_isSome util st j r rs)
          refine ⟨j, i, ?_⟩
          unfold weightChoose
          rw [hj]
          show (some j, pickBestStudent util st j (r :: rs)) = (some j, some i)
          rw [hi]

theorem randomChoose_some_spec (rng : Nat → Nat) (k : Nat) (st : AState)
    (avail rem : List Nat) (j i : Nat)
    (h : randomChoose rng k st avail rem = (some j, some i)) :
    j ∈ avail ∧ i ∈ rem := by
  unfold randomChoose at h
  cases rem with
  | nil =>
      cases hp : pickSmallestTeam st avail with
      | none => rw [hp] at h; simp at h
      | some j0 => rw [hp] at h; simp at h
  | cons r rs =>
      cases hp : pickSmallestTeam st avail with
      | none => rw [hp] at h; simp at h
      | some j0 =>
          rw [hp] at h
          have hj : j0 = j := by
            have := congrArg Prod.fst h
            simpa using this
          have hi : (r :: rs).getD (rng k % (r :: rs).length) 0 = i := by
            have := congrArg Prod.snd h
            simpa using this
          subst hj
          refine ⟨pickSmallestTeam_mem st avail j0 hp, ?_⟩
          rw [← hi]
          exact tfGetDMem _ _ _ (Nat.mod_lt _ (by simp))

theorem randomChoose_progress (rng : Nat → Nat) (k : Nat) (st : AState)
    (avail rem : List Nat) (ha : avail ≠ []) (hr : rem ≠ []) :
    ∃ j i, randomChoose rng k st avail rem = (some j, some i) := by
  cases avail with
  | nil => exact absurd rfl ha
  | cons a as =>
      obtain ⟨j, hj⟩ := Option.isSome_iff_exists.mp (pickSmallestTeam_isSome st a as)
      cases rem with
      | nil => exact absurd rfl hr
      | cons r rs =>
          refine ⟨j, (r :: rs).getD (rng k % (r :: rs).length) 0, ?_⟩
          unfold randomChoose
          rw [hj]

/-! ## Effect of one assignment step -/

theorem addPair_teams_def (st : AState) (j i : Nat) :
    (addPair st j i).teams =
      st.teams.set j ⟨(st.teams.getD j dfltTeam).isLocked,
        (st.teams.getD j dfltTeam).members ++
          [(st.students.getD i dfltStudent).id]⟩ := rfl

theorem addPair_students_def (st : AState) (j i : Nat) :
    (addPair st j i).students =
      st.students.set i ⟨(st.students.getD i dfltStudent).id,
        (st.students.getD i dfltStudent).friends, some j⟩ := rfl

theorem addPair_students_length (st : AState) (j i : Nat) :
    (addPair st j i).students.length = st.students.length := by
  rw [addPair_students_def, List.length_set]

theorem addPair_teams_length (st : AState) (j i : Nat) :
    (addPair st j i).teams.length = st.teams.length := by
  rw [addPair_teams_def, List.length_set]

theorem addPair_lock_eq (st : AState) (j i j2 : Nat) :
    ((addPair st j i).teams.getD j2 dfltTeam).isLocked =
      ((st.teams.getD j2 dfltTeam).isLocked) := by
  rw [addPair_teams_def]
  by_cases hj : j = j2
  · subst hj
    by_cases hlen : j < st.teams.length
    · rw [tfGetDSetSelf _ _ _ _ hlen]
    · rw [tfSetOob _ _ _ (Nat.le_of_not_lt hlen)]
  · rw [tfGetDSetNe _ _ _ _ _ hj]

theorem addPair_team_other (st : AState) (j i j2 : Nat) (h : j ≠ j2) :
    (addPair st j i).teams.getD j2 dfltTeam = st.teams.getD j2 dfltTeam := by
  rw [addPair_teams_def, tfGetDSetNe _ _ _ _ _ h]

theorem addPair_team_self (st : AState) (j i : Nat) (h : j < st.teams.length) :
    (addPair st j i).teams.getD j dfltTeam =
      ⟨(st.teams.getD j dfltTeam).isLocked,
       (st.teams.getD j dfltTeam).members ++
         [(st.students.getD i dfltStudent).id]⟩ := by
  rw [addPair_teams_def, tfGetDSetSelf _ _ _ _ h]

theorem addPair_student_other (st : AState) (j i i2 : Nat) (h : i ≠ i2) :
    (addPair st j i).students.getD i2 dfltStudent =
      st.students.getD i2 dfltStudent := by
  rw [addPair_students_def, tfGetDSetNe _ _ _ _ _ h]

theorem addPair_student_self (st : AState) (j i : Nat)
    (h : i < st.students.length) :
    (addPair st j i).students.getD i dfltStudent =
      ⟨(st.students.getD i dfltStudent).id,
       (st.students.getD i dfltStudent).friends, some j⟩ := by
  rw [addPair_students_def, tfGetDSetSelf _ _ _ _ h]

/-! ## Invariant preservation for the shared choose-loop -/

theorem generateWithChoose_succ (tgo : TGO)
    (chooser : Nat → AState → List Nat → List Nat → Option Nat × Option Nat)
    (n k : Nat) (st : AState) :
    generateWithChoose tgo chooser (n + 1) k st =
      match chooser k st (getAvailableTeams tgo st) (getRemainingStudents st) with
      | (some j, some i) =>
          generateWithChoose tgo chooser n (k + 1) (addPair st j i)
      | _ => some st := rfl

theorem generateWithChoose_preserves (tgo : TGO)
    (chooser : Nat → AState → List Nat → List Nat → Option Nat × Option Nat)
    (hch : ∀ k st j i,
      chooser k st (getAvailableTeams tgo st) (getRemainingStudents st) =
          (some j, some i) →
      j ∈ getAvailableTeams tgo st) :
    ∀ fuel k st st2, generateWithChoose tgo chooser fuel k st = some st2 →
      st2.teams.length = st.teams.length ∧
      (∀ j2, ((st2.teams.getD j2 dfltTeam).isLocked) =
        ((st.teams.getD j2 dfltTeam).isLocked)) ∧
      lockedUntouched st st2 ∧
      (sizeOk tgo st → sizeOk tgo st2) := by
  intro fuel
  induction fuel with
  | zero =>
      intro k st st2 h
      exact absurd h (by simp [generateWithChoose])
  | succ n ih =>
      intro k st st2 h
      rw [generateWithChoose_succ] at h
      rcases hc : chooser k st (getAvailableTeams tgo st)
        (getRemainingStudents st) with ⟨oj, oi⟩
      rw [hc] at h
      cases oj with
      | none =>
          have hst : st = st2 := Option.some.inj h
          subst hst
          exact ⟨rfl, fun _ => rfl, fun _ _ => rfl, fun hs => hs⟩
      | some j =>
          cases oi with
          | none =>
              have hst : st = st2 := Option.some.inj h
              subst hst
              exact ⟨rfl, fun _ => rfl, fun _ _ => rfl, fun hs => hs⟩
          | some i =>
              have hjav := hch k st j i hc
              obtain ⟨hjlen, hjsize, hjlock⟩ :=
                (mem_getAvailableTeams tgo st j).mp hjav
              obtain ⟨ihlen, ihflags, ihlock, ihsize⟩ :=
                ih (k + 1) (addPair st j i) st2 h
              refine ⟨?_, ?_, ?_, ?_⟩
              · rw [ihlen, addPair_teams_length]
              · intro j2
                rw [ihflags j2, addPair_lock_eq]
              · intro j2 hl2
                have hne : j ≠ j2 := by
                  intro he
                  rw [he, hl2] at hjlock
                  exact Bool.true_eq_false.mp hjlock
                have haddeq := addPair_team_other st j i j2 hne
                have hl2b :
                    ((addPair st j i).teams.getD j2 dfltTeam).isLocked = true := by
                  rw [haddeq]; exact hl2
                rw [ihlock j2 hl2b, haddeq]
              · intro hsz
                apply ihsize
                intro j2
                by_cases he : j = j2
                · subst he
                  rw [addPair_team_self st j i hjlen]
                  have hlt : (st.teams.getD j dfltTeam).size < tgo.maxTeamsSize :=
                    hjsize
                  simp only [Team.size, List.length_append, List.length_cons,
                    List.length_nil] at hlt ⊢
                  omega
                · rw [addPair_team_other st j i j2 he]
                  exact hsz j2

/-! ## C1: the weight strategy assigns every student exactly once -/

theorem tfSumConst {α : Type} (f : α → Nat) (c : Nat) (l : List α)
    (h : ∀ x ∈ l, f x = c) : (l.map f).sum = l.length * c := by
  induction l with
  | nil => simp
  | cons x xs ih =>
      simp only [List.map_cons, List.sum_cons, List.length_cons]
      rw [h x (List.mem_cons_self x xs),
        ih (fun y hy => h y (List.mem_cons_of_mem x hy))]
      ring

theorem avail_nonempty (tgo : TGO) (st : AState)
    (hlock : ∀ j, (st.teams.getD j dfltTeam).isLocked = false)
    (hfree : 0 < freeSlots tgo st) :
    getAvailableTeams tgo st ≠ [] := by
  intro hav
  have hall : ∀ j, j < st.teams.length →
      tgo.maxTeamsSize ≤ (st.teams.getD j dfltTeam).size := by
    intro j hj
    by_contra hlt
    have hmem : j ∈ getAvailableTeams tgo st :=
      (mem_getAvailableTeams tgo st j).mpr ⟨hj, Nat.lt_of_not_le hlt, hlock j⟩
    rw [hav] at hmem
    simp at hmem
  have hzero : freeSlots tgo st = 0 := by
    unfold freeSlots
    rw [tfSumConst _ 0 _ ?_]
    · ring
    · intro t ht
      obtain ⟨n, hn, hget⟩ := List.mem_iff_getElem.mp ht
      have hgd : st.teams.getD n dfltTeam = t := by
        rw [List.getD_eq_getElem _ _ hn, hget]
      have h2 := hall n hn
      rw [hgd] at h2
      omega
  omega

theorem addPair_totalMemCount (st : AState) (j i sid2 : Nat)
    (hj : j < st.teams.length) :
    totalMemCount (addPair st j i) sid2 =
      totalMemCount st sid2 +
        (if (st.students.getD i dfltStudent).id = sid2 then 1 else 0) := by
  unfold totalMemCount
  rw [addPair_teams_def]
  have key := tfSumMapSet (fun t => t.members.count sid2) st.teams j
    ⟨(st.teams.getD j dfltTeam).isLocked,
     (st.teams.getD j dfltTeam).members ++
       [(st.students.getD i dfltStudent).id]⟩
    dfltTeam hj
  have hcount : (((st.teams.getD j dfltTeam).members ++
      [(st.students.getD i dfltStudent).id]).count sid2) =
      (st.teams.getD j dfltTeam).members.count sid2 +
        (if (st.students.getD i dfltStudent).id = sid2 then 1 else 0) := by
    rw [List.count_append]
    congr 1
    rw [List.count_singleton']
  dsimp only at key
  rw [hcount] at key
  omega

/-- The invariant carried through the weight choose-loop: the id sequence is
fixed, all teams are unlocked, the unassigned students fit into the spare
capacity, and every student occurs in the member lists exactly as often as
their back-reference says. -/
def c1Inv (tgo : TGO) (ids0 : List Nat) (st : AState) : Prop :=
  st.students.map Student.id = ids0 ∧
  (∀ j, (st.teams.getD j dfltTeam).isLocked = false) ∧
  unassignedCount st ≤ freeSlots tgo st ∧
  (∀ i2, i2 < st.students.length →
    totalMemCount st ((st.students.getD i2 dfltStudent).id) =
      (if (st.students.getD i2 dfltStudent).team.isSome then 1 else 0))

theorem c1Inv_addPair (tgo : TGO) (ids0 : List Nat) (st : AState) (j i : Nat)
    (hnd : ids0.Nodup) (hinv : c1Inv tgo ids0 st)
    (hj : j < st.teams.length)
    (hjsize : (st.teams.getD j dfltTeam).size < tgo.maxTeamsSize)
    (hi : i < st.students.length)
    (hiteam : (st.students.getD i dfltStudent).team = none) :
    c1Inv tgo ids0 (addPair st j i) ∧
    unassignedCount (addPair st j i) + 1 = unassignedCount st := by
  obtain ⟨hids, hlock, hfree, hcount⟩ := hinv
  have hnd2 : (st.students.map Student.id).Nodup := by rw [hids]; exact hnd
  have hids2 : (addPair st j i).students.map Student.id = ids0 := by
    rw [addPair_students_def, List.map_set]
    have hgd : (st.students.map Student.id).getD i 0 =
        (st.students.getD i dfltStudent).id := tfGetDMapId _ _ hi
    calc (st.students.map Student.id).set i
          (Student.id ⟨(st.students.getD i dfltStudent).id,
            (st.students.getD i dfltStudent).friends, some j⟩)
        = (st.students.map Student.id).set i
            ((st.students.map Student.id).getD i 0) := by rw [hgd]
      _ = st.students.map Student.id := tfSetGetDSelf _ _ _
      _ = ids0 := hids
  have hm : unassignedCount (addPair st j i) + 1 = unassignedCount st := by
    unfold unassignedCount
    rw [addPair_students_length]
    apply tfCountPSetExcept (List.range st.students.length) _ _ i
      (List.mem_range.mpr hi) (List.nodup_range _)
    · rw [addPair_student_self st j i hi]
      rfl
    · rw [hiteam]
      rfl
    · intro x _ hxne
      rw [addPair_student_other st j i x (fun he => hxne he.symm)]
  have hf : freeSlots tgo (addPair st j i) + 1 = freeSlots tgo st := by
    unfold freeSlots
    rw [addPair_teams_def]
    have key := tfSumMapSet (fun t => tgo.maxTeamsSize - t.size) st.teams j
      ⟨(st.teams.getD j dfltTeam).isLocked,
       (st.teams.getD j dfltTeam).members ++
         [(st.students.getD i dfltStudent).id]⟩
      dfltTeam hj
    have hsz : (Team.mk (st.teams.getD j dfltTeam).isLocked
        ((st.teams.getD j dfltTeam).members ++
          [(st.students.getD i dfltStudent).id])).size =
        (st.teams.getD j dfltTeam).size + 1 := by
      simp [Team.size]
    dsimp only at key
    rw [hsz] at key
    omega
  refine ⟨⟨hids2, ?_, ?_, ?_⟩, hm⟩
  · intro j2
    rw [addPair_lock_eq]
    exact hlock j2
  · omega
  · intro i2 hi2
    rw [addPair_students_length] at hi2
    by_cases he : i = i2
    · subst he
      rw [addPair_student_self st j i hi]
      rw [addPair_totalMemCount st j i _ hj]
      have h0 := hcount i hi
      rw [hiteam] at h0
      simp only [Option.isSome_none, Bool.false_eq_true, if_false] at h0
      simp only [Option.isSome_some, if_true, if_pos rfl]
      omega
    · rw [addPair_student_other st j i i2 he,
        addPair_totalMemCount st j i _ hj]
      have hneid : (st.students.getD i dfltStudent).id ≠
          (st.students.getD i2 dfltStudent).id := by
        intro heq
        apply he
        apply tfNodupGetDInj (st.students.map Student.id) 0 hnd2 i i2
          (by simpa using hi) (by simpa using hi2)
        rw [tfGetDMapId _ _ hi, tfGetDMapId _ _ hi2, heq]
      rw [if_neg hneid]
      simpa using hcount i2 hi2

theorem weightLoop_completes (tgo : TGO) (util : Team → Student → Int)
    (ids0 : List Nat) (hnd : ids0.Nodup) :
    ∀ fuel k st, c1Inv tgo ids0 st → unassignedCount st < fuel →
      ∃ st2, generateWithChoose tgo (weightChooser util) fuel k st = some st2 ∧
        c1Inv tgo ids0 st2 ∧ unassignedCount st2 = 0 := by
  intro fuel
  induction fuel with
  | zero =>
      intro k st _ hm
      omega
  | succ n ih =>
      intro k st hinv hm
      cases hrem : getRemainingStudents st with
      | nil =>
          have hm0 : unassignedCount st = 0 := by
            rw [unassignedCount_eq_length_rem, hrem]
            rfl
          refine ⟨st, ?_, hinv, hm0⟩
          rw [generateWithChoose_succ, hrem]
          show (match weightChoose util st (getAvailableTeams tgo st) [] with
            | (some j, some i) =>
                generateWithChoose tgo (weightChooser util) n (k + 1) (addPair st j i)
            | _ => some st) = some st
          unfold weightChoose
          cases hp : pickSmallestTeam st (getAvailableTeams tgo st) with
          | none => rfl
          | some j0 => rfl
      | cons i0 rest =>
          have hmpos : 0 < unassignedCount st := by
            rw [unassignedCount_eq_length_rem, hrem]
            simp
          have hfpos : 0 < freeSlots tgo st :=
            Nat.lt_of_lt_of_le hmpos hinv.2.2.1
          have hav : getAvailableTeams tgo st ≠ [] :=
            avail_nonempty tgo st hinv.2.1 hfpos
          obtain ⟨j, i, hch⟩ := weightChoose_progress util st
            (getAvailableTeams tgo st) (getRemainingStudents st) hav
            (by rw [hrem]; simp)
          obtain ⟨hjmem, himem⟩ := weightChoose_some_spec util st _ _ j i hch
          obtain ⟨hjlen, hjsize, _⟩ := (mem_getAvailableTeams tgo st j).mp hjmem
          obtain ⟨hilen, hiteam⟩ := (mem_getRemainingStudents st i).mp himem
          obtain ⟨hinv2, hstep⟩ :=
            c1Inv_addPair tgo ids0 st j i hnd hinv hjlen hjsize hilen hiteam
          have hm2 : unassignedCount (addPair st j i) < n := by omega
          obtain ⟨st2, hgen, hinv3, hm3⟩ := ih (k + 1) (addPair st j i) hinv2 hm2
          refine ⟨st2, ?_, hinv3, hm3⟩
          rw [generateWithChoose_succ]
          have hch2 : weightChooser util k st (getAvailableTeams tgo st)
              (getRemainingStudents st) = (some j, some i) := hch
          rw [hch2]
          exact hgen

/-- C1: for a non-empty student list with distinct ids given unassigned, an
initially empty roster with no locked team, and total capacity (team count
times `max_teams_size`) at least the student count, `WeightAlgorithm.generate`
terminates (fuel one more than the student count already yields a result) and
every student ends with their back-reference set and their id occurring in
exactly one member list exactly once, for every utility function. -/
theorem weight_generate_assigns_all (tgo : TGO) (util : Team → Student → Int)
    (students : List Student) (teams : List Team)
    (_hne : students ≠ [])
    (hnd : (students.map Student.id).Nodup)
    (hfresh : ∀ s ∈ students, s.team = none)
    (hempty : ∀ t ∈ teams, t.members = [])
    (hunlocked : ∀ t ∈ teams, t.isLocked = false)
    (hcap : students.length ≤ teams.length * tgo.maxTeamsSize) :
    (weightGenerate tgo util (students.length + 1) ⟨students, teams⟩).isSome
        = true ∧
    ∀ st2, weightGenerate tgo util (students.length + 1) ⟨students, teams⟩ =
        some st2 →
      st2.students.map Student.id = students.map Student.id ∧
      ∀ i, i < st2.students.length →
        (st2.students.getD i dfltStudent).team.isSome = true ∧
        totalMemCount st2 ((st2.students.getD i dfltStudent).id) = 1 := by
  have hinit : c1Inv tgo (students.map Student.id) ⟨students, teams⟩ := by
    refine ⟨rfl, ?_, ?_, ?_⟩
    · intro j
      by_cases hj : j < teams.length
      · exact hunlocked _ (tfGetDMem teams j dfltTeam hj)
      · rw [List.getD_eq_default _ _ (Nat.le_of_not_lt hj)]
        rfl
    · have hfs : freeSlots tgo ⟨students, teams⟩ =
          teams.length * tgo.maxTeamsSize := by
        unfold freeSlots
        rw [tfSumConst _ tgo.maxTeamsSize _ ?_]
        intro t ht
        simp [Team.size, hempty t ht]
      have hm : unassignedCount ⟨students, teams⟩ ≤ students.length := by
        unfold unassignedCount
        calc (List.range students.length).countP _
            ≤ (List.range students.length).length := List.countP_le_length _
          _ = students.length := List.length_range _
      rw [hfs]
      omega
    · intro i2 hi2
      have hteam : (students.getD i2 dfltStudent).team = none :=
        hfresh _ (tfGetDMem students i2 dfltStudent hi2)
      have hzero : totalMemCount ⟨students, teams⟩
          ((students.getD i2 dfltStudent).id) = 0 := by
        unfold totalMemCount
        rw [tfSumConst _ 0 _ ?_]
        · ring
        · intro t ht
          rw [hempty t ht]
          rfl
      rw [hzero, hteam]
      rfl
  have hmlt : unassignedCount ⟨students, teams⟩ < students.length + 1 := by
    unfold unassignedCount
    calc (List.range students.length).countP _
        ≤ (List.range students.length).length := List.countP_le_length _
      _ = students.length := List.length_range _
      _ < students.length + 1 := Nat.lt_succ_self _
  obtain ⟨st2, hgen, hinv2, hm0⟩ := weightLoop_completes tgo util
    (students.map Student.id) hnd (students.length + 1) 0 ⟨students, teams⟩
    hinit hmlt
  constructor
  · unfold weightGenerate
    rw [hgen]
    rfl
  · intro st2b hgen2
    have heq : st2 = st2b := by
      unfold weightGenerate at hgen2
      rw [hgen] at hgen2
      exact Option.some.inj hgen2
    subst heq
    refine ⟨hinv2.1, ?_⟩
    intro i hi
    have hnone : ∀ a ∈ List.range st2.students.length,
        ¬((st2.students.getD a dfltStudent).team.isNone = true) := by
      have := hm0
      unfold unassignedCount at this
      exact List.countP_eq_zero.mp this
    have hsome : (st2.students.getD i dfltStudent).team.isSome = true := by
      have h2 := hnone i (List.mem_range.mpr hi)
      cases hopt : (st2.students.getD i dfltStudent).team with
      | none => rw [hopt] at h2; simp at h2
      | some j => rfl
    refine ⟨hsome, ?_⟩
    have := hinv2.2.2.2 i hi
    rw [hsome] at this
    simpa using this

/-- The concrete input of the C1 witness: two fresh students, one unlocked
empty team of capacity 2. -/
def w1Init : AState := ⟨[⟨1, [], none⟩, ⟨2, [], none⟩], [⟨false, []⟩]⟩

/-- The state the weight strategy reaches on `w1Init`. -/
def w1Result : AState := ⟨[⟨1, [], some 0⟩, ⟨2, [], some 0⟩], [⟨false, [1, 2]⟩]⟩

/-- Witness for C1 at `w1Init` with the zero utility function. -/
theorem weight_generate_assigns_all_witness :
    (weightGenerate ⟨2, 1⟩ (fun _ _ => 0) 3 w1Init).isSome = true ∧
    totalMemCount w1Result 1 = 1 ∧ totalMemCount w1Result 2 = 1 := by
  have H := weight_generate_assigns_all ⟨2, 1⟩ (fun _ _ => 0)
    [⟨1, [], none⟩, ⟨2, [], none⟩] [⟨false, []⟩]
    (by decide) (by decide) (by decide) (by decide) (by decide) (by decide)
  refine ⟨H.1, ?_, ?_⟩
  · exact ((H.2 w1Result rfl).2 0 (by decide)).2
  · exact ((H.2 w1Result rfl).2 1 (by decide)).2

/-! ## C3: the priority search never returns worse than its seed -/

theorem mem_insertDesc (score : PTeamSet → Int) (x y : PTeamSet)
    (l : List PTeamSet) (h : y ∈ insertDesc score x l) : y = x ∨ y ∈ l := by
  induction l with
  | nil => exact Or.inl (by simpa [insertDesc] using h)
  | cons z zs ih =>
      unfold insertDesc at h
      by_cases hlt : score z < score x
      · rw [if_pos hlt] at h
        rcases List.mem_cons.mp h with h1 | h2
        · exact Or.inl h1
        · exact Or.inr h2
      · rw [if_neg hlt] at h
        rcases List.mem_cons.mp h with h1 | h2
        · exact Or.inr (h1 ▸ List.mem_cons_self z zs)
        · rcases ih h2 with ha | hb
          · exact Or.inl ha
          · exact Or.inr (List.mem_cons_of_mem z hb)

theorem mem_sortDescByScore (score : PTeamSet → Int) (l : List PTeamSet)
    (y : PTeamSet) (h : y ∈ sortDescByScore score l) : y ∈ l := by
  induction l with
  | nil => simp [sortDescByScore] at h
  | cons x xs ih =>
      unfold sortDescByScore at h
      rcases mem_insertDesc score x y _ h with h1 | h2
      · exact h1 ▸ List.mem_cons_self x xs
      · exact List.mem_cons_of_mem x (ih h2)

theorem priorityStep_subset (score : PTeamSet → Int) (pop : List PTeamSet)
    (y : PTeamSet) (h : y ∈ priorityStep score pop) : y ∈ pop := by
  unfold priorityStep at h
  have h2 := List.take_subset _ _ h
  have h3 := mem_sortDescByScore score _ y h2
  rcases List.mem_append.mp h3 with h4 | h5
  · exact h4
  · obtain ⟨ts, hts, hy⟩ := List.mem_flatMap.mp h5
    have hyts : y = ts := by
      simpa [priorityMutate, PTeamSet.clone] using hy
    exact hyts ▸ hts

theorem priorityLoop_all_seed (score : PTeamSet → Int) (seed : PTeamSet) :
    ∀ n (pop : List PTeamSet), (∀ ts ∈ pop, ts = seed) →
      ∀ ts ∈ priorityLoop score n pop, ts = seed := by
  intro n
  induction n with
  | zero => intro pop h; exact h
  | succ m ih =>
      intro pop h
      exact ih (priorityStep score pop)
        (fun ts hts => h ts (priorityStep_subset score pop ts hts))

theorem headD_eq_of_all {α : Type} (l : List α) (a : α) (h : ∀ x ∈ l, x = a) :
    l.headD a = a := by
  cases l with
  | nil => rfl
  | cons x xs => exact h x (List.mem_cons_self x xs)

/-- Because the mutation operator is a bare structural clone, every member of
the kept population remains the seed; in particular the returned team list is
exactly the seed's. -/
theorem priorityGenerate_eq_seed (tgo : TGO) (util : Team → Student → Int)
    (score : PTeamSet → Int) (fuel iters : Nat) (st0 st1 : AState)
    (hseed : weightGenerate tgo util fuel st0 = some st1) :
    priorityGenerate tgo util score fuel iters st0 = some st1.teams := by
  unfold priorityGenerate
  rw [hseed]
  have hall := priorityLoop_all_seed score ⟨st1.teams⟩ iters [⟨st1.teams⟩]
    (by intro ts hts; simpa using hts)
  show some ((priorityLoop score iters [⟨st1.teams⟩]).headD ⟨st1.teams⟩).teams =
    some st1.teams
  rw [headD_eq_of_all _ _ hall]

/-- C3: for every scoring function (the fitness), every seed produced by the
weight strategy, and every time budget of at least one iteration,
`PriorityAlgorithm.generate` returns a team-set whose score is at least the
seed's: at every iteration the previous population is retained beside its
cloned children, sorted descending by fitness, and truncated, so the best
kept candidate never worsens. -/
theorem priority_generate_monotone (tgo : TGO) (util : Team → Student → Int)
    (score : PTeamSet → Int) (fuel iters : Nat) (st0 st1 : AState)
    (_hiters : 1 ≤ iters)
    (hseed : weightGenerate tgo util fuel st0 = some st1) :
    ∃ teams2, priorityGenerate tgo util score fuel iters st0 = some teams2 ∧
      score ⟨teams2⟩ ≥ score ⟨st1.teams⟩ := by
  refine ⟨st1.teams, priorityGenerate_eq_seed tgo util score fuel iters st0 st1 hseed, ?_⟩
  exact le_refl _

/-- Witness for C3 at the concrete `w1Init` run, scoring by team count. -/
theorem priority_generate_monotone_witness :
    priorityGenerate ⟨2, 1⟩ (fun _ _ => 0)
        (fun ts => (ts.teams.length : Int)) 3 1 w1Init =
      some [⟨false, [1, 2]⟩] ∧
    (([(⟨false, [1, 2]⟩ : Team)].length : Int) ≥
      (w1Result.teams.length : Int)) := by
  obtain ⟨t2, h1, h2⟩ := priority_generate_monotone ⟨2, 1⟩ (fun _ _ => 0)
    (fun ts => (ts.teams.length : Int)) 3 1 w1Init w1Result (by decide) rfl
  have ht : t2 = [⟨false, [1, 2]⟩] := by
    rw [show priorityGenerate ⟨2, 1⟩ (fun _ _ => 0)
        (fun ts => (ts.teams.length : Int)) 3 1 w1Init =
      some [(⟨false, [1, 2]⟩ : Team)] from rfl] at h1
    exact (Option.some.inj h1).symm
  exact ⟨ht ▸ h1, ht ▸ h2⟩

/-! ## C2: size bounds through the social phases -/

theorem addStudentById_teams_def (st : AState) (j : Nat) (s : Student) :
    (addStudentById st j s).teams =
      st.teams.set j ⟨(st.teams.getD j dfltTeam).isLocked,
        (st.teams.getD j dfltTeam).members ++ [s.id]⟩ := rfl

theorem addStudentById_teams_length (st : AState) (j : Nat) (s : Student) :
    (addStudentById st j s).teams.length = st.teams.length := by
  rw [addStudentById_teams_def, List.length_set]

theorem addStudentById_team_other (st : AState) (j : Nat) (s : Student)
    (j2 : Nat) (h : j ≠ j2) :
    (addStudentById st j s).teams.getD j2 dfltTeam =
      st.teams.getD j2 dfltTeam := by
  rw [addStudentById_teams_def, tfGetDSetNe _ _ _ _ _ h]

theorem addStudentById_team_self (st : AState) (j : Nat) (s : Student)
    (h : j < st.teams.length) :
    (addStudentById st j s).teams.getD j dfltTeam =
      ⟨(st.teams.getD j dfltTeam).isLocked,
       (st.teams.getD j dfltTeam).members ++ [s.id]⟩ := by
  rw [addStudentById_teams_def, tfGetDSetSelf _ _ _ _ h]

theorem saveStudents_teams_length (st : AState) (j : Nat)
    (cs : List Student) :
    (saveStudentsToTeam st j cs).teams.length = st.teams.length := by
  induction cs generalizing st with
  | nil => rfl
  | cons c rest ih =>
      show (saveStudentsToTeam (addStudentById st j c) j rest).teams.length =
        st.teams.length
      rw [ih, addStudentById_teams_length]

theorem saveStudents_team_other (st : AState) (j : Nat) (cs : List Student)
    (j2 : Nat) (h : j ≠ j2) :
    (saveStudentsToTeam st j cs).teams.getD j2 dfltTeam =
      st.teams.getD j2 dfltTeam := by
  induction cs generalizing st with
  | nil => rfl
  | cons c rest ih =>
      show (saveStudentsToTeam (addStudentById st j c) j rest).teams.getD j2
          dfltTeam = st.teams.getD j2 dfltTeam
      rw [ih, addStudentById_team_other st j c j2 h]

theorem saveStudents_size_self (st : AState) (j : Nat) (cs : List Student)
    (h : j < st.teams.length) :
    ((saveStudentsToTeam st j cs).teams.getD j dfltTeam).size =
      (st.teams.getD j dfltTeam).size + cs.length := by
  induction cs generalizing st with
  | nil => rfl
  | cons c rest ih =>
      show ((saveStudentsToTeam (addStudentById st j c) j rest).teams.getD j
          dfltTeam).size = (st.teams.getD j dfltTeam).size + (c :: rest).length
      rw [ih _ (by rw [addStudentById_teams_length]; exact h),
        addStudentById_team_self st j c h]
      simp [Team.size]
      omega

theorem saveStudents_sizeOk (tgo : TGO) (st : AState) (j : Nat)
    (cs : List Student) (hj : j < st.teams.length)
    (hbound : (st.teams.getD j dfltTeam).size + cs.length ≤ tgo.maxTeamsSize)
    (hs : sizeOk tgo st) : sizeOk tgo (saveStudentsToTeam st j cs) := by
  intro j2
  by_cases he : j = j2
  · subst he
    rw [saveStudents_size_self st j cs hj]
    exact hbound
  · rw [saveStudents_team_other st j cs j2 he]
    exact hs j2

theorem kSubsets_length {α : Type} :
    ∀ (k : Nat) (l : List α), ∀ c ∈ kSubsets k l, c.length = k := by
  intro k l
  induction l generalizing k with
  | nil =>
      intro c hc
      cases k with
      | zero =>
          have : c = [] := by simpa [kSubsets] using hc
          rw [this]
          rfl
      | succ m => simp [kSubsets] at hc
  | cons x xs ih =>
      intro c hc
      cases k with
      | zero =>
          have : c = [] := by simpa [kSubsets] using hc
          rw [this]
          rfl
      | succ m =>
          unfold kSubsets at hc
          rcases List.mem_append.mp hc with h1 | h2
          · obtain ⟨c2, hc2, rfl⟩ := List.mem_map.mp h1
            simp [ih m c2 hc2]
          · exact ih (m + 1) c h2

theorem getCliques_length (l : List Student) (k : Nat) (c : List Student)
    (h : c ∈ getCliques l k) : c.length = k :=
  kSubsets_length k l c (List.mem_filter.mp h).1

theorem findLteCliques_length (l : List Student) (k : Nat) (c : List Student)
    (h : c ∈ findLteCliques l k) : 1 ≤ c.length ∧ c.length ≤ k := by
  unfold findLteCliques at h
  rw [List.mem_flatten] at h
  obtain ⟨xs, hxs, hc⟩ := h
  obtain ⟨d, hd, rfl⟩ := List.mem_map.mp hxs
  have hdk := List.mem_range.mp hd
  have hlen := getCliques_length l (k - d) c hc
  omega

theorem nextEmptyTeam_spec (st : AState) (j : Nat)
    (h : nextEmptyTeam st = some j) :
    j < st.teams.length ∧ (st.teams.getD j dfltTeam).size = 0 := by
  unfold nextEmptyTeam at h
  constructor
  · exact List.mem_range.mp (List.mem_of_find?_eq_some h)
  · have := List.find?_some h
    simpa using this

theorem foldlFragment_spec (tgo : TGO) (st : AState) (l : List Nat) :
    ∀ (acc : Option Nat × Nat) (j : Nat),
      (l.foldl (fragmentStep tgo st) acc).1 = some j →
      ((j ∈ l ∧ (st.teams.getD j dfltTeam).size < tgo.minTeamSize) ∨
        acc.1 = some j) := by
  induction l with
  | nil => intro acc j h; exact Or.inr h
  | cons x xs ih =>
      intro acc j h
      rw [List.foldl_cons] at h
      rcases ih _ j h with ⟨hm, hsz⟩ | hacc
      · exact Or.inl ⟨List.mem_cons_of_mem x hm, hsz⟩
      · unfold fragmentStep at hacc
        by_cases h1 : tgo.minTeamSize ≤ (st.teams.getD x dfltTeam).size
        · rw [if_pos h1] at hacc
          exact Or.inr hacc
        · rw [if_neg h1] at hacc
          by_cases h2 : acc.2 < (st.teams.getD x dfltTeam).size
          · rw [if_pos h2] at hacc
            have : x = j := by simpa using hacc
            exact Or.inl ⟨this ▸ List.mem_cons_self x xs,
              this ▸ Nat.lt_of_not_le h1⟩
          · rw [if_neg h2] at hacc
            exact Or.inr hacc

theorem getLargestFragmentTeam_spec (tgo : TGO) (st : AState) (j : Nat)
    (h : getLargestFragmentTeam tgo st = some j) :
    j < st.teams.length ∧
    (st.teams.getD j dfltTeam).size < tgo.minTeamSize := by
  unfold getLargestFragmentTeam at h
  rcases foldlFragment_spec tgo st _ _ j h with ⟨hm, hsz⟩ | hacc
  · exact ⟨List.mem_range.mp hm, hsz⟩
  · simp at hacc

theorem socialStep1_sizeOk (tgo : TGO) :
    ∀ (cls : List (List Student)) (st : AState),
      (∀ c ∈ cls, c.length ≤ tgo.maxTeamsSize) → sizeOk tgo st →
      sizeOk tgo (socialStep1 cls st) ∧
      (socialStep1 cls st).teams.length = st.teams.length := by
  intro cls
  induction cls with
  | nil => intro st _ hs; exact ⟨hs, rfl⟩
  | cons c rest ih =>
      intro st hlen hs
      rw [show socialStep1 (c :: rest) st =
        (match nextEmptyTeam st with
         | none => st
         | some j => socialStep1 rest (saveStudentsToTeam st j c)) from rfl]
      cases hne : nextEmptyTeam st with
      | none => exact ⟨hs, rfl⟩
      | some j =>
          obtain ⟨hjlen, hjsz⟩ := nextEmptyTeam_spec st j hne
          have hs2 : sizeOk tgo (saveStudentsToTeam st j c) := by
            apply saveStudents_sizeOk tgo st j c hjlen ?_ hs
            rw [hjsz]
            simpa using hlen c (List.mem_cons_self c rest)
          obtain ⟨ih1, ih2⟩ := ih (saveStudentsToTeam st j c)
            (fun c2 hc2 => hlen c2 (List.mem_cons_of_mem c hc2)) hs2
          exact ⟨ih1, by rw [ih2, saveStudents_teams_length]⟩

theorem socialStep2_succ (tgo : TGO) (n : Nat) (st : AState) :
    socialStep2 tgo (n + 1) st =
      match nextEmptyTeam st with
      | none => some st
      | some j =>
          match getCliques (remainingStudentVals st) (tgo.minTeamSize - 1) with
          | [] => socialStep2 tgo n st
          | c :: _ => socialStep2 tgo n (saveStudentsToTeam st j c) := rfl

theorem socialStep2_sizeOk (tgo : TGO)
    (hminmax : tgo.minTeamSize ≤ tgo.maxTeamsSize) :
    ∀ fuel (st st2 : AState), sizeOk tgo st →
      socialStep2 tgo fuel st = some st2 →
      sizeOk tgo st2 ∧ st2.teams.length = st.teams.length := by
  intro fuel
  induction fuel with
  | zero =>
      intro st st2 _ h
      simp [socialStep2] at h
  | succ n ih =>
      intro st st2 hs h
      rw [socialStep2_succ] at h
      cases hne : nextEmptyTeam st with
      | none =>
          rw [hne] at h
          have : st = st2 := Option.some.inj h
          subst this
          exact ⟨hs, rfl⟩
      | some j =>
          rw [hne] at h
          obtain ⟨hjlen, hjsz⟩ := nextEmptyTeam_spec st j hne
          cases hcl : getCliques (remainingStudentVals st)
              (tgo.minTeamSize - 1) with
          | nil =>
              rw [hcl] at h
              exact ih st st2 hs h
          | cons c cs =>
              rw [hcl] at h
              have hclen : c.length = tgo.minTeamSize - 1 :=
                getCliques_length _ _ c (hcl ▸ List.mem_cons_self c cs)
              have hs2 : sizeOk tgo (saveStudentsToTeam st j c) := by
                apply saveStudents_sizeOk tgo st j c hjlen ?_ hs
                rw [hjsz, hclen]
                omega
              obtain ⟨ih1, ih2⟩ := ih (saveStudentsToTeam st j c) st2 hs2 h
              exact ⟨ih1, by rw [ih2, saveStudents_teams_length]⟩

theorem socialStep3Grow_succ (tgo : TGO) (j : Nat) (n : Nat) (st : AState) :
    socialStep3Grow tgo j (n + 1) st =
      if (st.teams.getD j dfltTeam).size < tgo.minTeamSize then
        match findLteCliques (remainingStudentVals st)
            (tgo.minTeamSize - (st.teams.getD j dfltTeam).size) with
        | [] => some (Except.error ())
        | c :: _ => socialStep3Grow tgo j n (saveStudentsToTeam st j c)
      else some (Except.ok st) := rfl

theorem socialStep3Grow_sizeOk (tgo : TGO)
    (hminmax : tgo.minTeamSize ≤ tgo.maxTeamsSize) (j : Nat) :
    ∀ fuel (st r : AState), j < st.teams.length → sizeOk tgo st →
      socialStep3Grow tgo j fuel st = some (Except.ok r) →
      sizeOk tgo r ∧ r.teams.length = st.teams.length := by
  intro fuel
  induction fuel with
  | zero =>
      intro st r _ _ h
      simp [socialStep3Grow] at h
  | succ n ih =>
      intro st r hj hs h
      rw [socialStep3Grow_succ] at h
      by_cases hlt : (st.teams.getD j dfltTeam).size < tgo.minTeamSize
      · rw [if_pos hlt] at h
        cases hcl : findLteCliques (remainingStudentVals st)
            (tgo.minTeamSize - (st.teams.getD j dfltTeam).size) with
        | nil =>
            rw [hcl] at h
            exact absurd (Option.some.inj h) (by simp)
        | cons c cs =>
            rw [hcl] at h
            obtain ⟨hc1, hc2⟩ := findLteCliques_length _ _ c
              (hcl ▸ List.mem_cons_self c cs)
            have hs2 : sizeOk tgo (saveStudentsToTeam st j c) := by
              apply saveStudents_sizeOk tgo st j c hj ?_ hs
              omega
            obtain ⟨ih1, ih2⟩ := ih (saveStudentsToTeam st j c) r
              (by rw [saveStudents_teams_length]; exact hj) hs2 h
            exact ⟨ih1, by rw [ih2, saveStudents_teams_length]⟩
      · rw [if_neg hlt] at h
        have : st = r := by
          have h2 := Option.some.inj h
          exact Except.ok.inj h2
        subst this
        exact ⟨hs, rfl⟩

theorem socialStep3_succ (tgo : TGO) (n : Nat) (st : AState) :
    socialStep3 tgo (n + 1) st =
      (if (getRemainingStudents st).isEmpty then some (Except.ok st)
       else
        match getLargestFragmentTeam tgo st with
        | none => some (Except.ok st)
        | some j =>
            match socialStep3Grow tgo j n st with
            | none => none
            | some (Except.error e) => some (Except.error e)
            | some (Except.ok st2) => socialStep3 tgo n st2) := rfl

theorem socialStep3_sizeOk (tgo : TGO)
    (hminmax : tgo.minTeamSize ≤ tgo.maxTeamsSize) :
    ∀ fuel (st r : AState), sizeOk tgo st →
      socialStep3 tgo fuel st = some (Except.ok r) →
      sizeOk tgo r ∧ r.teams.length = st.teams.length := by
  intro fuel
  induction fuel with
  | zero =>
      intro st r _ h
      simp [socialStep3] at h
  | succ n ih =>
      intro st r hs h
      rw [socialStep3_succ] at h
      by_cases hrem : (getRemainingStudents st).isEmpty
      · rw [if_pos hrem] at h
        have : st = r := Except.ok.inj (Option.some.inj h)
        subst this
        exact ⟨hs, rfl⟩
      · rw [if_neg hrem] at h
        cases hfr : getLargestFragmentTeam tgo st with
        | none =>
            rw [hfr] at h
            have : st = r := Except.ok.inj (Option.some.inj h)
            subst this
            exact ⟨hs, rfl⟩
        | some j =>
            rw [hfr] at h
            replace h : (match socialStep3Grow tgo j n st with
              | none => (none : Option (Except Unit AState))
              | some (Except.error e) => some (Except.error e)
              | some (Except.ok st2) => socialStep3 tgo n st2) =
                some (Except.ok r) := h
            obtain ⟨hjlen, _⟩ := getLargestFragmentTeam_spec tgo st j hfr
            cases hg : socialStep3Grow tgo j n st with
            | none => rw [hg] at h; exact absurd h (by simp)
            | some er =>
                rw [hg] at h
                cases er with
                | error e => exact absurd (Option.some.inj h) (by simp)
                | ok st2 =>
                    obtain ⟨hg1, hg2⟩ :=
                      socialStep3Grow_sizeOk tgo hminmax j n st st2 hjlen hs hg
                    obtain ⟨ih1, ih2⟩ := ih st2 r hg1 h
                    exact ⟨ih1, by rw [ih2, hg2]⟩

theorem foldlAvail_sizeOk (tgo : TGO) (s : Student) :
    ∀ (L : List Nat) (st : AState), L.Nodup →
      (∀ j ∈ L, j < st.teams.length ∧
        (st.teams.getD j dfltTeam).size < tgo.maxTeamsSize) →
      sizeOk tgo st →
      sizeOk tgo (L.foldl (fun acc j => addStudentById acc j s) st) ∧
      (L.foldl (fun acc j => addStudentById acc j s) st).teams.length =
        st.teams.length := by
  intro L
  induction L with
  | nil => intro st _ _ hs; exact ⟨hs, rfl⟩
  | cons j L ih =>
      intro st hnd hmem hs
      rw [List.foldl_cons]
      obtain ⟨hjlen, hjsz⟩ := hmem j (List.mem_cons_self j L)
      have hs2 : sizeOk tgo (addStudentById st j s) := by
        intro j2
        by_cases he : j = j2
        · subst he
          rw [addStudentById_team_self st j s hjlen]
          simp only [Team.size, List.length_append, List.length_cons,
            List.length_nil] at hjsz ⊢
          omega
        · rw [addStudentById_team_other st j s j2 he]
          exact hs j2
      have hmem2 : ∀ j2 ∈ L, j2 < (addStudentById st j s).teams.length ∧
          ((addStudentById st j s).teams.getD j2 dfltTeam).size <
            tgo.maxTeamsSize := by
        intro j2 hj2
        have hne : j ≠ j2 := fun he => (List.nodup_cons.mp hnd).1 (he ▸ hj2)
        obtain ⟨h1, h2⟩ := hmem j2 (List.mem_cons_of_mem j hj2)
        rw [addStudentById_teams_length,
          addStudentById_team_other st j s j2 hne]
        exact ⟨h1, h2⟩
      obtain ⟨ih1, ih2⟩ := ih (addStudentById st j s)
        (List.nodup_cons.mp hnd).2 hmem2 hs2
      exact ⟨ih1, by rw [ih2, addStudentById_teams_length]⟩

theorem socialStep4One_sizeOk (tgo : TGO) (st : AState) (s : Student)
    (hs : sizeOk tgo st) :
    sizeOk tgo (socialStep4One tgo st s) ∧
    (socialStep4One tgo st s).teams.length = st.teams.length := by
  unfold socialStep4One
  apply foldlAvail_sizeOk
  · exact List.Nodup.filter _ (List.nodup_range _)
  · intro j hj
    obtain ⟨h1, h2, _⟩ := (mem_getAvailableTeams tgo st j).mp hj
    exact ⟨h1, h2⟩
  · exact hs

theorem socialStep4_sizeOk (tgo : TGO) :
    ∀ (ss : List Student) (st : AState), sizeOk tgo st →
      sizeOk tgo (ss.foldl (fun acc s => socialStep4One tgo acc s) st) := by
  intro ss
  induction ss with
  | nil => intro st hs; exact hs
  | cons s rest ih =>
      intro st hs
      rw [List.foldl_cons]
      exact ih _ (socialStep4One_sizeOk tgo st s hs).1

theorem socialGenerate_def (tgo : TGO) (fuel : Nat) (st : AState) :
    socialGenerate tgo fuel st =
      match socialStep2 tgo fuel
          (socialStep1 (getCliques (remainingStudentVals st) tgo.maxTeamsSize)
            st) with
      | none => none
      | some stB =>
          match socialStep3 tgo fuel stB with
          | none => none
          | some (Except.error e) => some (Except.error e)
          | some (Except.ok stC) =>
              some (Except.ok (socialStep4 tgo stC)) := rfl

theorem socialGenerate_sizeOk (tgo : TGO) (fuel : Nat) (st st2 : AState)
    (hminmax : tgo.minTeamSize ≤ tgo.maxTeamsSize)
    (hs : sizeOk tgo st)
    (h : socialGenerate tgo fuel st = some (Except.ok st2)) :
    sizeOk tgo st2 := by
  rw [socialGenerate_def] at h
  have hs1 : sizeOk tgo
      (socialStep1 (getCliques (remainingStudentVals st) tgo.maxTeamsSize) st) :=
    (socialStep1_sizeOk tgo _ st
      (fun c hc => le_of_eq (getCliques_length _ _ c hc)) hs).1
  cases h2 : socialStep2 tgo fuel
      (socialStep1 (getCliques (remainingStudentVals st) tgo.maxTeamsSize) st) with
  | none => rw [h2] at h; exact absurd h (by simp)
  | some stB =>
      rw [h2] at h
      replace h : (match socialStep3 tgo fuel stB with
        | none => (none : Option (Except Unit AState))
        | some (Except.error e) => some (Except.error e)
        | some (Except.ok stC) => some (Except.ok (socialStep4 tgo stC))) =
          some (Except.ok st2) := h
      have hsB := (socialStep2_sizeOk tgo hminmax fuel _ stB hs1 h2).1
      cases h3 : socialStep3 tgo fuel stB with
      | none => rw [h3] at h; exact absurd h (by simp)
      | some er =>
          rw [h3] at h
          cases er with
          | error e => exact absurd (Option.some.inj h) (by simp)
          | ok stC =>
              have hsC := (socialStep3_sizeOk tgo hminmax fuel stB stC hsB h3).1
              have heq : socialStep4 tgo stC = st2 :=
                Except.ok.inj (Option.some.inj h)
              rw [← heq]
              unfold socialStep4
              exact socialStep4_sizeOk tgo _ stC hsC

/-- C2, amended: for every initial state within capacity, the three
choose-loop strategies (Weight, Random, Priority) keep every team's member
count within `max_teams_size` and never touch a locked team; the social
strategy also keeps member counts within `max_teams_size` whenever
`min_team_size ≤ max_teams_size`, but its locked-team guarantee fails (see
the counterexample: phases 1–3 never consult the locked flag). -/
theorem strategies_respect_capacity_and_locks (tgo : TGO)
    (util : Team → Student → Int) (rng : Nat → Nat) (score : PTeamSet → Int)
    (fuel iters : Nat) (st0 : AState) (h0 : sizeOk tgo st0) :
    (∀ st2, weightGenerate tgo util fuel st0 = some st2 →
      sizeOk tgo st2 ∧ lockedUntouched st0 st2) ∧
    (∀ st2, randomGenerate tgo rng fuel st0 = some st2 →
      sizeOk tgo st2 ∧ lockedUntouched st0 st2) ∧
    (∀ teams2, priorityGenerate tgo util score fuel iters st0 = some teams2 →
      (∀ j, (teams2.getD j dfltTeam).size ≤ tgo.maxTeamsSize) ∧
      (∀ j, (st0.teams.getD j dfltTeam).isLocked = true →
        teams2.getD j dfltTeam = st0.teams.getD j dfltTeam)) ∧
    (tgo.minTeamSize ≤ tgo.maxTeamsSize →
      ∀ st2, socialGenerate tgo fuel st0 = some (Except.ok st2) →
        sizeOk tgo st2) := by
  have hwv : ∀ k st j i, weightChooser util k st (getAvailableTeams tgo st)
      (getRemainingStudents st) = (some j, some i) →
      j ∈ getAvailableTeams tgo st :=
    fun k st j i h => (weightChoose_some_spec util st _ _ j i h).1
  have hrv : ∀ k st j i, randomChooser rng k st (getAvailableTeams tgo st)
      (getRemainingStudents st) = (some j, some i) →
      j ∈ getAvailableTeams tgo st :=
    fun k st j i h => (randomChoose_some_spec rng k st _ _ j i h).1
  have hweight : ∀ st2, weightGenerate tgo util fuel st0 = some st2 →
      sizeOk tgo st2 ∧ lockedUntouched st0 st2 := by
    intro st2 h
    obtain ⟨_, _, hlocked, hsz⟩ := generateWithChoose_preserves tgo
      (weightChooser util) hwv fuel 0 st0 st2 h
    exact ⟨hsz h0, hlocked⟩
  refine ⟨hweight, ?_, ?_, ?_⟩
  · intro st2 h
    obtain ⟨_, _, hlocked, hsz⟩ := generateWithChoose_preserves tgo
      (randomChooser rng) hrv fuel 0 st0 st2 h
    exact ⟨hsz h0, hlocked⟩
  · intro teams2 h
    cases hw : weightGenerate tgo util fuel st0 with
    | none =>
        have hnone : priorityGenerate tgo util score fuel iters st0 = none := by
          unfold priorityGenerate
          rw [hw]
        rw [hnone] at h
        exact absurd h (by simp)
    | some st1 =>
        have hpg := priorityGenerate_eq_seed tgo util score fuel iters st0 st1 hw
        have ht2 : st1.teams = teams2 := Option.some.inj (hpg.symm.trans h)
        obtain ⟨hsz, hlocked⟩ := hweight st1 hw
        constructor
        · intro j
          rw [← ht2]
          exact hsz j
        · intro j hl
          rw [← ht2]
          exact hlocked j hl
  · intro hminmax st2 h
    exact socialGenerate_sizeOk tgo fuel st0 st2 hminmax h0 h

/-- Witness for the amended C2 at `w1Init` under `min = max = 2`: the team
size bound, extracted from each of the four strategies' runs. -/
theorem strategies_respect_capacity_and_locks_witness :
    (w1Result.teams.getD 0 dfltTeam).size ≤ 2 ∧
    ([(⟨false, [1, 2]⟩ : Team)].getD 0 dfltTeam).size ≤ 2 := by
  have hsz : sizeOk ⟨2, 2⟩ w1Init := by
    intro j
    cases j with
    | zero => decide
    | succ n =>
        show (([] : List Team).getD n dfltTeam).size ≤ 2
        rw [List.getD_nil]
        decide
  have H := strategies_respect_capacity_and_locks ⟨2, 2⟩ (fun _ _ => 0)
    (fun _ => 0) (fun _ => 0) 3 1 w1Init hsz
  refine ⟨?_, ?_⟩
  · exact (H.1 w1Result rfl).1 0
  · exact (H.2.2.1 [⟨false, [1, 2]⟩] rfl).1 0
